import Mathlib

/-!
Verification of the `CoincParamsDistributions` accumulator and its helpers
from `pylal/ligolw_burca_tailor.py`, and of the option checking of
`bin/plot_likelihood.py`.

Python dictionaries are embedded as association lists `List (String × α)`
(lookup finds the first matching key; assignment to an existing key replaces
the stored value in place, assignment to a fresh key appends).  Real numbers
are embedded as rationals.  Calls that can raise a Python exception are
embedded as `Except`-valued functions.
-/

namespace BurcaTailor

/-- Python dict lookup `d[k]` as an association-list lookup: the first entry
whose key equals `k`. -/
def alookup {α : Type} (k : String) : List (String × α) → Option α
  | [] => none
  | (k', v) :: rest => if k' = k then some v else alookup k rest

/-- Python dict assignment `d[k] = v` for a key already present: replace the
stored value, keeping the entry order. -/
def setk {α : Type} (l : List (String × α)) (k : String) (v : α) : List (String × α) :=
  l.map (fun kv => if kv.1 = k then (k, v) else kv)

/-- Python dict assignment `d[k] = v` in general: replace if the key is
present, append a new entry otherwise. -/
def dinsert {α : Type} (l : List (String × α)) (k : String) (v : α) : List (String × α) :=
  if (alookup k l).isSome then setk l k v else l ++ [(k, v)]

/-- The keys of an association list, in entry order. -/
def keysOf {α : Type} (l : List (String × α)) : List String :=
  l.map Prod.fst

/-!
## The `Rate` histogram

`pylal.rate.Rate` is code of this repository that is not under `src/`, so it
is modelled from the spec.
-/

/-- Modelled from the spec: `pylal.rate.Rate`, "a binned estimator over a
bounded real interval with a bin width; mutable counts per bin; supports a
post-hoc smoothing kernel and a final unit-normalization pass.  Out-of-interval
values are silently dropped."  `lo`/`hi` are the configured interval, `array`
holds one count per bin, and `window` is the configured smoothing kernel
(identity `[1]` until `set_filter` is called). -/
structure Rate where
  lo : ℚ
  hi : ℚ
  binWidth : ℚ
  array : List ℚ
  window : List ℚ
deriving DecidableEq, Repr

/-- Modelled from the spec: construction of a `Rate` from an
`(interval, bin_width)` configuration — one zeroed bin per `bin_width`-wide
slice of the interval, and the trivial smoothing kernel. -/
def mkRate (seg : ℚ × ℚ) (w : ℚ) : Rate :=
  { lo := seg.1
    hi := seg.2
    binWidth := w
    array := List.replicate (Int.toNat ⌈(seg.2 - seg.1) / w⌉) 0
    window := [1] }

/-- Whether a value lies inside the `Rate`'s configured interval. -/
def inInterval (r : Rate) (v : ℚ) : Prop :=
  r.lo ≤ v ∧ v < r.hi

instance (r : Rate) (v : ℚ) : Decidable (inInterval r v) := by
  unfold inInterval; infer_instance

/-- The index of the bin containing `v`. -/
def binIdx (r : Rate) (v : ℚ) : Nat :=
  Int.toNat ⌊(v - r.lo) / r.binWidth⌋

/-- Modelled from the spec: `rate[value]` indexing.  An in-interval value maps
to its bin; an out-of-interval value (or a bin index beyond the array, which
cannot happen for a well-formed `Rate`) yields `none`, the embedding of the
`IndexError` that the accumulator catches. -/
def binOf (r : Rate) (v : ℚ) : Option Nat :=
  if inInterval r v ∧ binIdx r v < r.array.length then some (binIdx r v) else none

/-- Modelled from the spec: `rate[value] += 1.0` — `some` of the updated
histogram for an in-interval value, `none` (an `IndexError`) otherwise. -/
def rateIncrE (r : Rate) (v : ℚ) : Option Rate :=
  (binOf r v).map (fun i => { r with array := r.array.set i (r.array.getD i 0 + 1) })

/-- Modelled from the spec: in-place addition of two `Rate`s, "summing
histograms bin-for-bin". -/
def rateAdd (r0 r : Rate) : Rate :=
  { r0 with array := List.zipWith (fun a b => a + b) r0.array r.array }

/-- One kernel-weighted contribution to output bin `i` of the smoothing pass:
kernel entry `j` times the input bin offset by `j` minus the kernel's centre
(bins beyond either end of the array count as zero). -/
def smoothTerm (w a : List ℚ) (i j : ℕ) : ℚ :=
  w.getD j 0 *
    (if 0 ≤ (i : ℤ) + (j : ℤ) - ((w.length / 2 : ℕ) : ℤ)
      then a.getD (Int.toNat ((i : ℤ) + (j : ℤ) - ((w.length / 2 : ℕ) : ℤ))) 0
      else 0)

/-- Output bin `i` of the smoothing pass: the sum of all kernel-weighted
contributions. -/
def smoothEntry (w a : List ℚ) (i : ℕ) : ℚ :=
  ((List.range w.length).map (smoothTerm w a i)).sum

/-- Modelled from the spec: the smoothing pass.  Each output bin is the
kernel-weighted sum of the input bins around it; the kernel is centred on its
middle entry. -/
def smooth (w a : List ℚ) : List ℚ :=
  (List.range a.length).map (smoothEntry w a)

/-- `finish()`'s per-histogram work (`ligolw_burca_tailor.py` lines 229–234):
apply the smoothing filter, then divide the bin values by their total sum. -/
def finishRate (r : Rate) : Rate :=
  { r with array := (smooth r.window r.array).map (fun x => x / (smooth r.window r.array).sum) }

/-- The bin edges of a `Rate`: `lo`, `lo + binWidth`, …, one more edge than
there are bins. -/
def binEdges (r : Rate) : List ℚ :=
  (List.range (r.array.length + 1)).map (fun i => r.lo + r.binWidth * (i : ℚ))

/-!
## `CoincParamsDistributions` (`ligolw_burca_tailor.py` lines 183–235)
-/

/-- `CoincParamsDistributions`: one `Rate` per tracked parameter name, in each
of the background and injection regimes. -/
structure CoincParamsDistributions where
  background_rates : List (String × Rate)
  injection_rates : List (String × Rate)
deriving DecidableEq, Repr

/-- `CoincParamsDistributions.__init__`: one pair of matching empty histograms
per configured parameter name. -/
def mkCPD (cfg : List (String × ((ℚ × ℚ) × ℚ))) : CoincParamsDistributions :=
  { background_rates := cfg.map (fun pc => (pc.1, mkRate pc.2.1 pc.2.2))
    injection_rates := cfg.map (fun pc => (pc.1, mkRate pc.2.1 pc.2.2)) }

/-- `try: rate[value] += 1.0 except IndexError: pass` — the histogram after
recording one value, unchanged when the value is out of interval. -/
def tryIncr (r : Rate) (v : ℚ) : Rate :=
  match rateIncrE r v with
  | some r' => r'
  | none => r

/-- The body of `add_background`/`add_injection`: for each `(param, value)`
pair, look the parameter's histogram up (a missing name raises a `KeyError`,
embedded as `Except.error param`), and increment the bin holding the value,
ignoring the `IndexError` raised for an out-of-interval value. -/
def addToRates (l : List (String × Rate)) : List (String × ℚ) → Except String (List (String × Rate))
  | [] => Except.ok l
  | (p, v) :: rest =>
    match alookup p l with
    | none => Except.error p
    | some r => addToRates (setk l p (tryIncr r v)) rest

/-- `CoincParamsDistributions.add_background`, applied to the parameter
dictionary that `param_func(events, timeslide)` returned. -/
def add_background (d : CoincParamsDistributions) (ps : List (String × ℚ)) :
    Except String CoincParamsDistributions :=
  (addToRates d.background_rates ps).map
    (fun bg => { d with background_rates := bg })

/-- `CoincParamsDistributions.add_injection`, applied to the parameter
dictionary that `param_func(events, timeslide)` returned. -/
def add_injection (d : CoincParamsDistributions) (ps : List (String × ℚ)) :
    Except String CoincParamsDistributions :=
  (addToRates d.injection_rates ps).map
    (fun inj => { d with injection_rates := inj })

/-- `CoincParamsDistributions.set_filter`: install a smoothing kernel on the
named parameter's background and injection histograms (a missing name raises
a `KeyError`). -/
def set_filter (d : CoincParamsDistributions) (p : String) (w : List ℚ) :
    Except Unit CoincParamsDistributions :=
  match alookup p d.background_rates, alookup p d.injection_rates with
  | some rb, some ri =>
    Except.ok
      { background_rates := setk d.background_rates p { rb with window := w }
        injection_rates := setk d.injection_rates p { ri with window := w } }
  | _, _ => Except.error ()

/-- `CoincParamsDistributions.finish`: smooth and normalize every histogram of
both regimes. -/
def finish (d : CoincParamsDistributions) : CoincParamsDistributions :=
  { background_rates := d.background_rates.map (fun pr => (pr.1, finishRate pr.2))
    injection_rates := d.injection_rates.map (fun pr => (pr.1, finishRate pr.2)) }

/-- The body of `__iadd__` for one regime's mapping: for each of the other
accumulator's entries, add bin-for-bin onto an existing histogram of the same
name, or adopt the histogram for a fresh name. -/
def iaddRates (mine others : List (String × Rate)) : List (String × Rate) :=
  others.foldl
    (fun acc pr =>
      match alookup pr.1 acc with
      | some r0 => setk acc pr.1 (rateAdd r0 pr.2)
      | none => acc ++ [pr])
    mine

/-- `CoincParamsDistributions.__iadd__` (the merge succeeds whenever the other
operand is a `CoincParamsDistributions`, which the typed embedding makes
automatic). -/
def iadd (a b : CoincParamsDistributions) : CoincParamsDistributions :=
  { background_rates := iaddRates a.background_rates b.background_rates
    injection_rates := iaddRates a.injection_rates b.injection_rates }

/-!
## `coinc_params` (`ligolw_burca_tailor.py` lines 82–130)
-/

/-- A single-detector burst trigger, with the attributes `coinc_params`
reads.  `peak` stands for `get_peak()` plus the epoch arithmetic, as a
rational. -/
structure Event where
  ifo : String
  peak : ℚ
  peak_frequency : ℚ
  ms_hrss : ℚ
  ms_snr : ℚ
  ms_bandwidth : ℚ
  ms_duration : ℚ
deriving DecidableEq, Repr

/-- Stable insertion of an event into a list sorted by detector identifier:
the new event goes after any event with the same identifier, mirroring
Python's stable `events.sort(lambda a, b: cmp(a.ifo, b.ifo))`. -/
def insertEv (e : Event) : List Event → List Event
  | [] => [e]
  | x :: xs => if x.ifo ≤ e.ifo then x :: insertEv e xs else e :: x :: xs

/-- `events.sort(lambda a, b: cmp(a.ifo, b.ifo))`: stable sort by detector
identifier. -/
def sortEv (events : List Event) : List Event :=
  events.foldl (fun acc e => insertEv e acc) []

/-- The comparison the sort uses: lexicographic order on the detector
identifiers. -/
def ifoLe (a b : Event) : Prop := a.ifo ≤ b.ifo

/-- `iterutils.choices(events, 2)`: all pairs of list elements, the first
taken from earlier in the list than the second. -/
def pairsOf : List Event → List (Event × Event)
  | [] => []
  | x :: xs => xs.map (fun y => (x, y)) ++ pairsOf xs

/-- The five `(name, delta)` updates one cross-instrument pair contributes:
time, fractional frequency, amplitude, bandwidth and duration differences,
named `<ifo1>_<ifo2>_<suffix>`. -/
def pairUpdates (off : String → ℚ) (e1 e2 : Event) : List (String × ℚ) :=
  [ (e1.ifo ++ "_" ++ e2.ifo ++ "_" ++ "dt",
      e1.peak + off e1.ifo - e2.peak - off e2.ifo),
    (e1.ifo ++ "_" ++ e2.ifo ++ "_" ++ "df",
      (e1.peak_frequency - e2.peak_frequency) / ((e1.peak_frequency + e2.peak_frequency) / 2)),
    (e1.ifo ++ "_" ++ e2.ifo ++ "_" ++ "dh",
      (e1.ms_hrss - e2.ms_hrss) / ((e1.ms_hrss + e2.ms_hrss) / 2)),
    (e1.ifo ++ "_" ++ e2.ifo ++ "_" ++ "dband",
      (e1.ms_bandwidth - e2.ms_bandwidth) / ((e1.ms_bandwidth + e2.ms_bandwidth) / 2)),
    (e1.ifo ++ "_" ++ e2.ifo ++ "_" ++ "ddur",
      (e1.ms_duration - e2.ms_duration) / ((e1.ms_duration + e2.ms_duration) / 2)) ]

/-- `params[name] = delta` under the guard
`if name not in params or abs(params[name]) > abs(delta)`. -/
def updMin (ps : List (String × ℚ)) (n : String) (v : ℚ) : List (String × ℚ) :=
  match alookup n ps with
  | none => ps ++ [(n, v)]
  | some w => if |w| > |v| then setk ps n v else ps

/-- A cross-instrument pair on which one of the four fractional differences
divides by zero, raising a `ZeroDivisionError`. -/
def zeroDenom (e1 e2 : Event) : Prop :=
  e1.peak_frequency + e2.peak_frequency = 0 ∨ e1.ms_hrss + e2.ms_hrss = 0 ∨
    e1.ms_bandwidth + e2.ms_bandwidth = 0 ∨ e1.ms_duration + e2.ms_duration = 0

instance (e1 e2 : Event) : Decidable (zeroDenom e1 e2) := by
  unfold zeroDenom; infer_instance

/-- `coinc_params(events, offsetdict)`.  The function sorts the events by
detector, then folds the pairwise updates into the parameter dictionary,
keeping for every name the delta of smallest absolute value.  It raises a
`ZeroDivisionError` (embedded as `Except.error`) when the events are nonempty
with all `ms_snr` zero (the weighted peak-time average divides by
`sum(ms_snr**2)`), or when some cross-instrument pair has a zero denominator
in one of the fractional differences. -/
def coinc_params (events : List Event) (off : String → ℚ) :
    Except Unit (List (String × ℚ)) :=
  if sortEv events ≠ [] ∧ ((sortEv events).map (fun e => e.ms_snr ^ 2)).sum = 0 then
    Except.error ()
  else if ∃ pr ∈ pairsOf (sortEv events), pr.1.ifo ≠ pr.2.ifo ∧ zeroDenom pr.1 pr.2 then
    Except.error ()
  else
    Except.ok
      ((pairsOf (sortEv events)).foldl
        (fun ps pr =>
          if pr.1.ifo = pr.2.ifo then ps
          else (pairUpdates off pr.1 pr.2).foldl (fun ps nv => updMin ps nv.1 nv.2) ps)
        [])

/-- All `(name, delta)` updates the pair loop performs, in order. -/
def allUpdates (off : String → ℚ) (events : List Event) : List (String × ℚ) :=
  (pairsOf (sortEv events)).flatMap
    (fun pr => if pr.1.ifo = pr.2.ifo then [] else pairUpdates off pr.1 pr.2)

/-- The deltas recorded under the name `k` across all cross-instrument pairs,
in the order the loop visits them. -/
def deltasFor (off : String → ℚ) (events : List Event) (k : String) : List ℚ :=
  (allUpdates off events).filterMap (fun nv => if nv.1 = k then some nv.2 else none)

/-- One step of keeping the smallest-absolute-value delta seen so far. -/
def betterAbs (acc : Option ℚ) (d : ℚ) : Option ℚ :=
  match acc with
  | none => some d
  | some w => if |w| > |d| then some d else acc

/-!
## XML serialization (`ligolw_burca_tailor.py` lines 521–539)

The `LIGO_LW` container is embedded as a name plus a list of children, each a
`Param` element or an array-valued element.  `pylal.rate.rate_to_xml` /
`rate_from_xml` are code of this repository missing from `src/` and are
modelled from the spec: "each histogram is written as a named array-valued
element; deserialization reconstructs the same mapping structure from those
named elements". -/

/-- A child of a `LIGO_LW` element: a `Param` or a named array element
holding a histogram's bin edges (as start and bin width) and bin values. -/
inductive LwChild where
  | par (name : String) (value : String)
  | arr (name : String) (lo : ℚ) (binWidth : ℚ) (values : List ℚ)
deriving DecidableEq, Repr

/-- The `Name` attribute of a child element. -/
def childName : LwChild → String
  | .par n _ => n
  | .arr n _ _ _ => n

/-- A `LIGO_LW` element: its `Name` attribute and its children. -/
structure LigoLW where
  name : String
  children : List LwChild
deriving DecidableEq, Repr

/-- Modelled from the spec: `pylal.rate.rate_to_xml` — the histogram as a
named array-valued element. -/
def rate_to_xml (r : Rate) (nm : String) : LwChild :=
  .arr nm r.lo r.binWidth r.array

/-- Recognize an array element with the given name, yielding its start, bin
width and values. -/
def arrMatcher (nm : String) : LwChild → Option (ℚ × ℚ × List ℚ)
  | .arr n lo w vs => if n = nm then some (lo, w, vs) else none
  | .par _ _ => none

/-- Recognize a `Param` element with the given name, yielding its value. -/
def parMatcher (nm : String) : LwChild → Option String
  | .par n v => if n = nm then some v else none
  | .arr _ _ _ _ => none

/-- Modelled from the spec: `pylal.rate.rate_from_xml` — find the single
array element with the given name and rebuild a `Rate` from its bin edges and
values (fresh trivial smoothing kernel); a missing (or duplicated) element is
fatal. -/
def rate_from_xml (x : LigoLW) (nm : String) : Except String Rate :=
  match x.children.filterMap (arrMatcher nm) with
  | [(lo, w, vs)] =>
    Except.ok { lo := lo, hi := lo + w * (vs.length : ℚ), binWidth := w, array := vs, window := [1] }
  | _ => Except.error nm

/-- `param.get_pyvalue(xml, name)`: the value of the single `Param` child with
the given name. -/
def get_pyvalue (x : LigoLW) (nm : String) : Except String String :=
  match x.children.filterMap (parMatcher nm) with
  | [v] => Except.ok v
  | _ => Except.error nm

/-- `coinc_params_distributions_to_xml(process, coinc_params_distributions,
name)`: a `LIGO_LW` element named
`<name>:pylal_ligolw_burca_tailor_coincparamsdistributions` holding the
`process_id` param and one array element per histogram, the background ones
named `background:<param>` and the injection ones `injection:<param>`. -/
def coinc_params_distributions_to_xml (process_id : String)
    (d : CoincParamsDistributions) (nm : String) : LigoLW :=
  { name := nm ++ ":pylal_ligolw_burca_tailor_coincparamsdistributions"
    children :=
      LwChild.par "process_id" process_id ::
        (d.background_rates.map (fun pr => rate_to_xml pr.2 ("background:" ++ pr.1)) ++
          d.injection_rates.map (fun pr => rate_to_xml pr.2 ("injection:" ++ pr.1))) }

/-- Python's `name.split(":")[1]`, specialised to the shape used at line 534:
the characters after the first `':'` and before the next one. -/
def afterColon (l : List Char) : List Char :=
  ((l.dropWhile (fun c => c ≠ ':')).drop 1).takeWhile (fun c => c ≠ ':')

/-- The line-534 comprehension filter: children whose `Name` starts with
`background:`, yielding the second `':'`-separated piece of the name. -/
def nameMatcher (c : LwChild) : Option String :=
  if (childName c).data.take 11 = ("background:" : String).data
    then some (String.mk (afterColon (childName c).data)) else none

/-- The histogram reconstructed by `rate_from_xml` from a serialized `Rate`:
same start, bin width and values, a derived upper edge and a fresh trivial
kernel. -/
def reconRate (r : Rate) : Rate :=
  { lo := r.lo, hi := r.lo + r.binWidth * (r.array.length : ℚ), binWidth := r.binWidth,
    array := r.array, window := [1] }

/-- One step of `coinc_params_distributions_from_xml`'s reconstruction loop:
rebuild the background and injection histograms recorded under one parameter
name (a missing element propagates as an error). -/
def addFromXml (x : LigoLW) (c : CoincParamsDistributions) (p : String) :
    Except String CoincParamsDistributions :=
  match rate_from_xml x ("background:" ++ p), rate_from_xml x ("injection:" ++ p) with
  | Except.ok rb, Except.ok ri =>
    Except.ok
      { background_rates := dinsert c.background_rates p rb
        injection_rates := dinsert c.injection_rates p ri }
  | Except.error e, _ => Except.error e
  | _, Except.error e => Except.error e

/-- The reconstruction loop of `coinc_params_distributions_from_xml`. -/
def buildCPD (x : LigoLW) (c : CoincParamsDistributions) :
    List String → Except String CoincParamsDistributions
  | [] => Except.ok c
  | p :: rest =>
    match addFromXml x c p with
    | Except.ok c' => buildCPD x c' rest
    | Except.error e => Except.error e

/-- `coinc_params_distributions_from_xml(xml, name)`: find the single
`LIGO_LW` element with the expected name, read its `process_id`, derive the
parameter names from the children whose names start with `background:`
(taking the second `':'`-separated piece), and rebuild both histogram
mappings. -/
def coinc_params_distributions_from_xml (doc : List LigoLW) (nm : String) :
    Except String (CoincParamsDistributions × String) :=
  match doc.filter
      (fun e => e.name = nm ++ ":pylal_ligolw_burca_tailor_coincparamsdistributions") with
  | [x] =>
    match get_pyvalue x "process_id" with
    | Except.error e => Except.error e
    | Except.ok pid =>
      match buildCPD x { background_rates := [], injection_rates := [] }
          (x.children.filterMap nameMatcher) with
      | Except.ok c => Except.ok (c, pid)
      | Except.error e => Except.error e
  | _ => Except.error nm

/-!
## `plot_likelihood.py` option checks (lines 104–155)
-/

/-- The CLI options the checks read: the five glob options (absent = `None`)
and the statistic name. -/
structure PlotOpts where
  found_glob : Option String
  missed_glob : Option String
  injection_glob : Option String
  slide_glob : Option String
  zero_glob : Option String
  statistic : String
deriving DecidableEq, Repr

/-- One glob check: skipped for an absent or empty (falsy) option, exit
status 1 with a diagnostic line when the glob matches no files.  `globber`
stands for `glob.glob`. -/
def globCheck (globber : String → List String) (g : Option String) (suffix : String) :
    Except (Nat × String) Unit :=
  match g with
  | none => Except.ok ()
  | some s =>
    if s = "" then Except.ok ()
    else if (globber s).length < 1 then Except.error (1, "The glob for " ++ s ++ suffix)
    else Except.ok ()

/-- The six valid `--statistic` values (the order of the script's `!=`
chain). -/
def validStatistics : List String :=
  ["snr", "snr_over_chi", "s3_snr_chi_stat", "effective_snr", "bitten_lsq", "bitten_l"]

/-- The two diagnostic lines printed for an invalid `--statistic`. -/
def statMsg : String :=
  "--statistic must be one of\n(snr|snr_over_chi|s3_snr_chi_stat|effective_snr|bitten_l)"

/-- The option-validation phase of `plot_likelihood.py`, in the script's
order: zero-lag, slide, injection, found and missed glob checks, then the
statistic check.  `Except.error (code, msg)` embeds `sys.exit(code)` after
printing `msg` to standard error. -/
def checkOptions (globber : String → List String) (o : PlotOpts) :
    Except (Nat × String) Unit :=
  match globCheck globber o.zero_glob " returned no files" with
  | Except.error e => Except.error e
  | Except.ok _ =>
    match globCheck globber o.slide_glob " returned no files" with
    | Except.error e => Except.error e
    | Except.ok _ =>
      match globCheck globber o.injection_glob "returned no files" with
      | Except.error e => Except.error e
      | Except.ok _ =>
        match globCheck globber o.found_glob "returned no files " with
        | Except.error e => Except.error e
        | Except.ok _ =>
          match globCheck globber o.missed_glob "returned no files " with
          | Except.error e => Except.error e
          | Except.ok _ =>
            if o.statistic ∈ validStatistics then Except.ok ()
            else Except.error (1, statMsg)

/-- A file-glob option that was supplied (present and non-empty, hence truthy
in Python) but matches no files. -/
def suppliedEmptyGlob (globber : String → List String) (g : Option String) : Prop :=
  ∃ s, g = some s ∧ s ≠ "" ∧ globber s = []

/-!
## State predicates the claims quantify over
-/

/-- A `Rate` whose array length matches its configured interval and bin
width, as `mkRate` produces. -/
def wfRate (r : Rate) : Prop :=
  0 < r.binWidth ∧ r.array.length = Int.toNat ⌈(r.hi - r.lo) / r.binWidth⌉

instance (r : Rate) : Decidable (wfRate r) := by
  unfold wfRate; infer_instance

/-- The state of a histogram on which at least one in-range value was
recorded (counts are nonnegative with at least one positive bin) and whose
smoothing kernel is a genuine weighting (nonnegative entries, positive centre
weight — true of the trivial kernel and of the Gaussian kernels the callers
install). -/
def goodRateState (r : Rate) : Prop :=
  (∀ x ∈ r.array, 0 ≤ x) ∧ (∃ x ∈ r.array, 0 < x) ∧
    (∀ x ∈ r.window, 0 ≤ x) ∧ 0 < r.window.getD (r.window.length / 2) 0

instance (r : Rate) : Decidable (goodRateState r) := by
  unfold goodRateState; infer_instance

/-- The background and injection mappings track the same parameter names. -/
def keysAligned (d : CoincParamsDistributions) : Prop :=
  (∀ k ∈ keysOf d.background_rates, k ∈ keysOf d.injection_rates) ∧
    (∀ k ∈ keysOf d.injection_rates, k ∈ keysOf d.background_rates)

instance (d : CoincParamsDistributions) : Decidable (keysAligned d) := by
  unfold keysAligned; infer_instance

/-- What one `add_background`/`add_injection` call must do to the targeted
mapping: for each `(param, value)` recorded, an out-of-interval value leaves
the parameter's bin counts unchanged, and an in-interval value adds `1.0` to
exactly the bin containing the value. -/
def recordedOK (old new : List (String × Rate)) (ps : List (String × ℚ)) : Prop :=
  ∀ p v, (p, v) ∈ ps → ∃ r r', alookup p old = some r ∧ alookup p new = some r' ∧
    (¬inInterval r v → r'.array = r.array) ∧
    (inInterval r v → binIdx r v < r.array.length ∧
      r'.array = r.array.set (binIdx r v) (r.array.getD (binIdx r v) 0 + 1))

/-!
## Concrete instances used by witnesses and counterexamples
-/

/-- A histogram with a non-trivial smoothing kernel and one recorded count. -/
def rateC7 : Rate :=
  { lo := 0, hi := 3, binWidth := 1, array := [1, 0, 0], window := [1, 1, 1] }

/-- An accumulator state on which `finish` is visibly not idempotent. -/
def dC7 : CoincParamsDistributions :=
  { background_rates := [("p", rateC7)], injection_rates := [("p", rateC7)] }

/-- An empty single-bin histogram over `[0, 1)`. -/
def rateUnit : Rate := mkRate (0, 1) 1

/-- An accumulator whose parameter name contains a colon — constructible in
Python as `CoincParamsDistributions(**{"a:b": (segment(0.0, 1.0), 1.0)})`. -/
def dColon : CoincParamsDistributions :=
  { background_rates := [("a:b", rateUnit)], injection_rates := [("a:b", rateUnit)] }

/-- A two-parameter accumulator with colon-free names and some counts. -/
def dRound : CoincParamsDistributions :=
  { background_rates :=
      [("a", { lo := 0, hi := 2, binWidth := 1, array := [1, 2], window := [1] }),
        ("b", { lo := -1, hi := 1, binWidth := 1, array := [0, 3], window := [1] })]
    injection_rates :=
      [("a", { lo := 0, hi := 2, binWidth := 1, array := [4, 0], window := [1] }),
        ("b", { lo := -1, hi := 1, binWidth := 1, array := [5, 6], window := [1] })] }

/-- A one-parameter accumulator with one recorded count per histogram. -/
def dW1 : CoincParamsDistributions :=
  { background_rates := [("x", { lo := 0, hi := 1, binWidth := 1, array := [2], window := [1] })]
    injection_rates := [("x", { lo := 0, hi := 1, binWidth := 1, array := [3], window := [1] })] }

/-- Merge operand: parameters `"a"` and `"b"`. -/
def dMergeA : CoincParamsDistributions :=
  { background_rates :=
      [("a", { lo := 0, hi := 2, binWidth := 1, array := [1, 2], window := [1] }),
        ("b", { lo := 0, hi := 1, binWidth := 1, array := [7], window := [1] })]
    injection_rates :=
      [("a", { lo := 0, hi := 2, binWidth := 1, array := [0, 1], window := [1] }),
        ("b", { lo := 0, hi := 1, binWidth := 1, array := [8], window := [1] })] }

/-- Merge operand: parameters `"a"` and `"c"` (so `"a"` is shared with
`dMergeA`, `"b"` and `"c"` are each on one side only). -/
def dMergeB : CoincParamsDistributions :=
  { background_rates :=
      [("a", { lo := 0, hi := 2, binWidth := 1, array := [10, 20], window := [1] }),
        ("c", { lo := 0, hi := 1, binWidth := 1, array := [9], window := [1] })]
    injection_rates :=
      [("a", { lo := 0, hi := 2, binWidth := 1, array := [30, 40], window := [1] }),
        ("c", { lo := 0, hi := 1, binWidth := 1, array := [11], window := [1] })] }

/-- A freshly configured accumulator with parameters `"a"` (interval `[0, 1)`)
and `"b"` (interval `[0, 2)`). -/
def dW4 : CoincParamsDistributions :=
  mkCPD [("a", ((0, 1), 1)), ("b", ((0, 2), 1))]

/-- An `H1` trigger. -/
def evH1 : Event :=
  { ifo := "H1", peak := 1, peak_frequency := 110, ms_hrss := 2, ms_snr := 6,
    ms_bandwidth := 12, ms_duration := 2 }

/-- An `H2` trigger. -/
def evH2 : Event :=
  { ifo := "H2", peak := 2, peak_frequency := 100, ms_hrss := 1, ms_snr := 5,
    ms_bandwidth := 10, ms_duration := 1 }

/-- A second `H1` trigger, further from `evL1` in time than `evH1x` is. -/
def evH1y : Event :=
  { ifo := "H1", peak := 10, peak_frequency := 130, ms_hrss := 3, ms_snr := 7,
    ms_bandwidth := 14, ms_duration := 3 }

/-- A first `H1` trigger close to `evL1` in time. -/
def evH1x : Event :=
  { ifo := "H1", peak := 0, peak_frequency := 120, ms_hrss := 4, ms_snr := 8,
    ms_bandwidth := 16, ms_duration := 4 }

/-- An `L1` trigger. -/
def evL1 : Event :=
  { ifo := "L1", peak := 1, peak_frequency := 105, ms_hrss := 5, ms_snr := 9,
    ms_bandwidth := 18, ms_duration := 5 }

/-- The parameter dictionary `coinc_params` computes for `[evH1, evH2]` with
zero offsets. -/
def cps12 : List (String × ℚ) :=
  [("H1_H2_dt", -1), ("H1_H2_df", (2 : ℚ)/21), ("H1_H2_dh", (2 : ℚ)/3),
    ("H1_H2_dband", (2 : ℚ)/11), ("H1_H2_ddur", (2 : ℚ)/3)]

/-- The parameter dictionary `coinc_params` computes for
`[evH1x, evH1y, evL1]` with zero offsets: both `H1`–`L1` pairs compete, and
each parameter keeps the delta of smaller absolute value. -/
def cps3 : List (String × ℚ) :=
  [("H1_L1_dt", -1), ("H1_L1_df", (2 : ℚ)/15), ("H1_L1_dh", (-2 : ℚ)/9),
    ("H1_L1_dband", (-2 : ℚ)/17), ("H1_L1_ddur", (-2 : ℚ)/9)]

/-!
## Association-list lemmas
-/

theorem alookup_append {α : Type} (k : String) (l1 l2 : List (String × α)) :
    alookup k (l1 ++ l2) =
      match alookup k l1 with
      | some v => some v
      | none => alookup k l2 := by
  induction l1 with
  | nil => simp [alookup]
  | cons hd tl ih =>
    obtain ⟨k', v⟩ := hd
    by_cases h : k' = k <;> simp [alookup, h, ih]

theorem alookup_cons {α : Type} (k k' : String) (v : α) (tl : List (String × α)) :
    alookup k ((k', v) :: tl) = if k' = k then some v else alookup k tl := rfl

theorem setk_cons {α : Type} (n k' : String) (v v' : α) (tl : List (String × α)) :
    setk ((k', v') :: tl) n v = (if k' = n then (n, v) else (k', v')) :: setk tl n v := by
  unfold setk
  simp only [List.map_cons]

theorem keysOf_cons {α : Type} (k' : String) (v : α) (tl : List (String × α)) :
    keysOf ((k', v) :: tl) = k' :: keysOf tl := rfl

theorem alookup_setk_self {α : Type} (k : String) (v : α) (l : List (String × α)) :
    alookup k (setk l k v) = (alookup k l).map (fun _ => v) := by
  induction l with
  | nil => simp [alookup, setk]
  | cons hd tl ih =>
    obtain ⟨k', v'⟩ := hd
    rw [setk_cons]
    by_cases h : k' = k
    · rw [if_pos h]
      simp [alookup_cons, h]
    · rw [if_neg h]
      simp [alookup_cons, h, ih]

theorem alookup_setk_ne {α : Type} (k n : String) (v : α) (l : List (String × α))
    (h : n ≠ k) : alookup k (setk l n v) = alookup k l := by
  induction l with
  | nil => simp [alookup, setk]
  | cons hd tl ih =>
    obtain ⟨k', v'⟩ := hd
    rw [setk_cons]
    by_cases h' : k' = n
    · rw [if_pos h']
      subst h'
      simp [alookup_cons, h, ih]
    · rw [if_neg h']
      by_cases h'' : k' = k <;> simp [alookup_cons, h'', ih]

theorem keysOf_setk {α : Type} (l : List (String × α)) (n : String) (v : α) :
    keysOf (setk l n v) = keysOf l := by
  induction l with
  | nil => rfl
  | cons hd tl ih =>
    obtain ⟨k', v'⟩ := hd
    rw [setk_cons]
    by_cases h : k' = n
    · rw [if_pos h]
      subst h
      simpa [keysOf] using ih
    · rw [if_neg h]
      simpa [keysOf] using ih

theorem alookup_eq_none_iff {α : Type} (k : String) (l : List (String × α)) :
    alookup k l = none ↔ k ∉ keysOf l := by
  induction l with
  | nil => simp [alookup, keysOf]
  | cons hd tl ih =>
    obtain ⟨k', v⟩ := hd
    by_cases h : k' = k
    · subst h
      simp [alookup_cons, keysOf_cons]
    · have hk : ¬k = k' := fun he => h he.symm
      simp [alookup_cons, keysOf_cons, h, hk, ih]

theorem alookup_isSome_iff {α : Type} (k : String) (l : List (String × α)) :
    (alookup k l).isSome ↔ k ∈ keysOf l := by
  rcases h : alookup k l with _ | v
  · rw [alookup_eq_none_iff] at h
    simp [h]
  · have : k ∈ keysOf l := by
      by_contra hk
      rw [← alookup_eq_none_iff k l] at hk
      rw [h] at hk
      cases hk
    simp [this]

theorem alookup_mem {α : Type} (k : String) (v : α) (l : List (String × α))
    (h : alookup k l = some v) : (k, v) ∈ l := by
  induction l with
  | nil => cases h
  | cons hd tl ih =>
    obtain ⟨k', v'⟩ := hd
    by_cases h' : k' = k
    · subst h'
      simp [alookup] at h
      simp [h]
    · simp [alookup, h'] at h
      simp [ih h]

theorem alookup_map_val {α β : Type} (k : String) (f : α → β) (l : List (String × α)) :
    alookup k (l.map (fun pr => (pr.1, f pr.2))) = (alookup k l).map f := by
  induction l with
  | nil => simp [alookup]
  | cons hd tl ih =>
    obtain ⟨k', v⟩ := hd
    by_cases h : k' = k <;> simp [alookup, h, ih]

theorem keysOf_append {α : Type} (l1 l2 : List (String × α)) :
    keysOf (l1 ++ l2) = keysOf l1 ++ keysOf l2 := by
  simp [keysOf]

theorem alookup_dinsert_self {α : Type} (k : String) (v : α) (l : List (String × α)) :
    alookup k (dinsert l k v) = some v := by
  unfold dinsert
  rcases h : alookup k l with _ | w
  · simp [h, alookup_append, alookup]
  · simp [h, alookup_setk_self, h]

theorem alookup_dinsert_ne {α : Type} (k n : String) (v : α) (l : List (String × α))
    (h : n ≠ k) : alookup k (dinsert l n v) = alookup k l := by
  unfold dinsert
  rcases hl : alookup n l with _ | w
  · simp [hl, alookup_append, alookup, h]
    rcases alookup k l with _ | u <;> simp [Ne.symm h]
  · simp [hl, alookup_setk_ne k n v l h]

/-!
## Sum and smoothing lemmas
-/

theorem sum_map_div (l : List ℚ) (s : ℚ) :
    (l.map (fun x => x / s)).sum = l.sum / s := by
  induction l with
  | nil => simp
  | cons hd tl ih => simp [ih, add_div]

theorem sum_pos_of_mem :
    ∀ l : List ℚ, (∀ x ∈ l, 0 ≤ x) → ∀ y, y ∈ l → 0 < y → 0 < l.sum := by
  intro l
  induction l with
  | nil => intro _ y hy; cases hy
  | cons hd tl ih =>
    intro hall y hy hypos
    rcases List.mem_cons.mp hy with h | h
    · subst h
      have htl : 0 ≤ tl.sum :=
        List.sum_nonneg (fun x hx => hall x (List.mem_cons_of_mem _ hx))
      simpa [List.sum_cons] using add_pos_of_pos_of_nonneg hypos htl
    · have hhd : 0 ≤ hd := hall hd (List.mem_cons_self _ _)
      have htl := ih (fun x hx => hall x (List.mem_cons_of_mem _ hx)) y h hypos
      simpa [List.sum_cons] using add_pos_of_nonneg_of_pos hhd htl

theorem getD_nonneg (l : List ℚ) (h : ∀ x ∈ l, 0 ≤ x) (n : Nat) : 0 ≤ l.getD n 0 := by
  by_cases hn : n < l.length
  · rw [List.getD_eq_getElem l 0 hn]
    exact h _ (List.getElem_mem hn)
  · rw [List.getD_eq_default]
    omega

theorem smooth_length (w a : List ℚ) : (smooth w a).length = a.length := by
  unfold smooth
  rw [List.length_map, List.length_range]

theorem smoothTerm_nonneg (w a : List ℚ) (hw : ∀ x ∈ w, 0 ≤ x) (ha : ∀ x ∈ a, 0 ≤ x)
    (i j : ℕ) : 0 ≤ smoothTerm w a i j := by
  unfold smoothTerm
  refine mul_nonneg (getD_nonneg w hw j) ?_
  split
  · exact getD_nonneg a ha _
  · exact le_refl 0

theorem smoothEntry_nonneg (w a : List ℚ) (hw : ∀ x ∈ w, 0 ≤ x) (ha : ∀ x ∈ a, 0 ≤ x)
    (i : ℕ) : 0 ≤ smoothEntry w a i := by
  unfold smoothEntry
  refine List.sum_nonneg ?_
  intro t ht
  obtain ⟨j, _, rfl⟩ := List.mem_map.mp ht
  exact smoothTerm_nonneg w a hw ha i j

theorem smooth_nonneg (w a : List ℚ) (hw : ∀ x ∈ w, 0 ≤ x) (ha : ∀ x ∈ a, 0 ≤ x) :
    ∀ x ∈ smooth w a, 0 ≤ x := by
  intro x hx
  obtain ⟨i, _, rfl⟩ := List.mem_map.mp hx
  exact smoothEntry_nonneg w a hw ha i

theorem smooth_sum_pos (w a : List ℚ) (hw : ∀ x ∈ w, 0 ≤ x)
    (hc : 0 < w.getD (w.length / 2) 0) (ha : ∀ x ∈ a, 0 ≤ x)
    (hpos : ∃ x ∈ a, 0 < x) : 0 < (smooth w a).sum := by
  obtain ⟨y, hy, hypos⟩ := hpos
  obtain ⟨i0, hi0, hval⟩ := List.mem_iff_getElem.mp hy
  have hclen : w.length / 2 < w.length := by
    by_contra hcl
    rw [List.getD_eq_default] at hc
    · exact lt_irrefl 0 hc
    · omega
  -- the centre term of the entry at i0 is positive
  have hterm : 0 < smoothTerm w a i0 (w.length / 2) := by
    unfold smoothTerm
    have hz : (i0 : ℤ) + ((w.length / 2 : ℕ) : ℤ) - ((w.length / 2 : ℕ) : ℤ) = (i0 : ℤ) := by
      ring
    rw [hz]
    simp only [Int.natCast_nonneg, if_pos, Int.toNat_natCast]
    rw [List.getD_eq_getElem a 0 hi0, hval]
    exact mul_pos hc hypos
  -- hence the entry at i0 is positive
  have hentry : 0 < smoothEntry w a i0 := by
    unfold smoothEntry
    refine sum_pos_of_mem _ ?_ _ ?_ hterm
    · intro t ht
      obtain ⟨j, _, rfl⟩ := List.mem_map.mp ht
      exact smoothTerm_nonneg w a hw ha i0 j
    · exact List.mem_map.mpr ⟨w.length / 2, List.mem_range.mpr hclen, rfl⟩
  -- hence the sum over all entries is positive
  refine sum_pos_of_mem _ (smooth_nonneg w a hw ha) _ ?_ hentry
  exact List.mem_map.mpr ⟨i0, List.mem_range.mpr hi0, rfl⟩

theorem finishRate_array (r : Rate) :
    (finishRate r).array =
      (smooth r.window r.array).map (fun x => x / (smooth r.window r.array).sum) := rfl

theorem finishRate_sum_one (r : Rate) (h : goodRateState r) :
    (finishRate r).array.sum = 1 := by
  obtain ⟨ha, hpos, hw, hc⟩ := h
  have hs : 0 < (smooth r.window r.array).sum :=
    smooth_sum_pos r.window r.array hw hc ha hpos
  rw [finishRate_array, sum_map_div]
  exact div_self (ne_of_gt hs)

/-!
## Recording lemmas (`add_background` / `add_injection`)
-/

theorem tryIncr_out (r : Rate) (v : ℚ) (h : ¬inInterval r v) : tryIncr r v = r := by
  unfold tryIncr rateIncrE binOf
  rw [if_neg (fun hc => h hc.1)]
  rfl

theorem tryIncr_in (r : Rate) (v : ℚ) (h : inInterval r v)
    (hlen : binIdx r v < r.array.length) :
    (tryIncr r v).array = r.array.set (binIdx r v) (r.array.getD (binIdx r v) 0 + 1) := by
  unfold tryIncr rateIncrE binOf
  rw [if_pos ⟨h, hlen⟩]
  rfl

theorem mkRate_wf (seg : ℚ × ℚ) (w : ℚ) (h : 0 < w) : wfRate (mkRate seg w) := by
  unfold wfRate mkRate
  simpa using h

theorem wf_binIdx_lt (r : Rate) (hwf : wfRate r) (v : ℚ) (h : inInterval r v) :
    binIdx r v < r.array.length := by
  obtain ⟨hw, hlen⟩ := hwf
  obtain ⟨hlo, hhi⟩ := h
  rw [hlen]
  have hx0 : (0 : ℚ) ≤ (v - r.lo) / r.binWidth :=
    div_nonneg (by linarith) (le_of_lt hw)
  have hxy : (v - r.lo) / r.binWidth < (r.hi - r.lo) / r.binWidth := by
    apply div_lt_div_of_pos_right _ hw
    linarith
  have h1 : (0 : ℤ) ≤ ⌊(v - r.lo) / r.binWidth⌋ := Int.floor_nonneg.mpr hx0
  have h2 : ⌊(v - r.lo) / r.binWidth⌋ < ⌈(r.hi - r.lo) / r.binWidth⌉ := by
    have hfl : (⌊(v - r.lo) / r.binWidth⌋ : ℚ) ≤ (v - r.lo) / r.binWidth := Int.floor_le _
    have hce : (r.hi - r.lo) / r.binWidth ≤ (⌈(r.hi - r.lo) / r.binWidth⌉ : ℚ) := Int.le_ceil _
    exact_mod_cast lt_of_le_of_lt hfl (lt_of_lt_of_le hxy hce)
  unfold binIdx
  omega

theorem addToRates_ok_keys :
    ∀ ps l l', addToRates l ps = Except.ok l' → keysOf l' = keysOf l := by
  intro ps
  induction ps with
  | nil =>
    intro l l' h
    simp only [addToRates] at h
    cases h
    rfl
  | cons hd tl ih =>
    intro l l' h
    obtain ⟨p, v⟩ := hd
    rcases hlk : alookup p l with _ | r
    · simp only [addToRates, hlk] at h
      exact Except.noConfusion h
    · simp only [addToRates, hlk] at h
      rw [ih _ _ h, keysOf_setk]

theorem addToRates_ok_iff :
    ∀ ps l, (∃ l', addToRates l ps = Except.ok l') ↔ ∀ pv ∈ ps, pv.1 ∈ keysOf l := by
  intro ps
  induction ps with
  | nil =>
    intro l
    simp [addToRates]
  | cons hd tl ih =>
    intro l
    obtain ⟨p, v⟩ := hd
    rcases hlk : alookup p l with _ | r
    · simp only [addToRates, hlk]
      constructor
      · rintro ⟨l', hl'⟩
        cases hl'
      · intro hall
        have hp : p ∈ keysOf l := hall (p, v) (List.mem_cons_self _ _)
        exact absurd hp ((alookup_eq_none_iff p l).mp hlk)
    · simp only [addToRates, hlk]
      rw [ih (setk l p (tryIncr r v))]
      rw [keysOf_setk]
      constructor
      · intro hall pv hpv
        rcases List.mem_cons.mp hpv with h | h
        · subst h
          have := alookup_isSome_iff p l
          simp [hlk] at this
          exact this
        · exact hall pv h
      · intro hall pv hpv
        exact hall pv (List.mem_cons_of_mem _ hpv)

theorem addToRates_lookup_notmem :
    ∀ ps l l', addToRates l ps = Except.ok l' →
      ∀ q, q ∉ ps.map Prod.fst → alookup q l' = alookup q l := by
  intro ps
  induction ps with
  | nil =>
    intro l l' h q _
    simp only [addToRates] at h
    cases h
    rfl
  | cons hd tl ih =>
    intro l l' h q hq
    obtain ⟨p, v⟩ := hd
    rcases hlk : alookup p l with _ | r
    · simp only [addToRates, hlk] at h
      exact Except.noConfusion h
    · simp only [addToRates, hlk] at h
      have hq1 : q ∉ tl.map Prod.fst := by
        intro hmem
        exact hq (by simpa using Or.inr (by simpa using hmem))
      have hq2 : p ≠ q := by
        intro he
        exact hq (by simp [← he])
      rw [ih _ _ h q hq1, alookup_setk_ne q p _ l hq2]

theorem addToRates_lookup_mem :
    ∀ ps l l', (ps.map Prod.fst).Nodup → addToRates l ps = Except.ok l' →
      ∀ p v, (p, v) ∈ ps → ∀ r, alookup p l = some r →
        alookup p l' = some (tryIncr r v) := by
  intro ps
  induction ps with
  | nil =>
    intro l l' _ _ p v hpv
    cases hpv
  | cons hd tl ih =>
    intro l l' hnd h p v hpv r hr
    obtain ⟨p0, v0⟩ := hd
    rw [List.map_cons] at hnd
    have hnd1 : p0 ∉ tl.map Prod.fst := (List.nodup_cons.mp hnd).1
    have hnd2 : (tl.map Prod.fst).Nodup := (List.nodup_cons.mp hnd).2
    rcases hlk : alookup p0 l with _ | r0
    · simp only [addToRates, hlk] at h
      exact Except.noConfusion h
    · simp only [addToRates, hlk] at h
      rcases List.mem_cons.mp hpv with hc | hc
      · rw [Prod.mk.injEq] at hc
        obtain ⟨he1, he2⟩ := hc
        subst he1
        subst he2
        have hr0 : r0 = r := by
          rw [hr] at hlk
          exact (Option.some.injEq _ _ ▸ hlk.symm)
        subst hr0
        rw [addToRates_lookup_notmem tl _ _ h p hnd1]
        rw [alookup_setk_self, hr]
        rfl
      · have hpne : p0 ≠ p := by
          intro he
          subst he
          exact hnd1 (by simpa using ⟨v, hc⟩)
        refine ih _ _ hnd2 h p v hc r ?_
        rw [alookup_setk_ne p p0 _ l hpne, hr]

/-!
## Merge lemmas (`__iadd__`)
-/

theorem iaddRates_cons (m : List (String × Rate)) (pr : String × Rate)
    (tl : List (String × Rate)) :
    iaddRates m (pr :: tl) =
      iaddRates
        (match alookup pr.1 m with
          | some r0 => setk m pr.1 (rateAdd r0 pr.2)
          | none => m ++ [pr]) tl := rfl

theorem iaddRates_lookup :
    ∀ o m (q : String), (keysOf o).Nodup →
      alookup q (iaddRates m o) =
        match alookup q m, alookup q o with
        | some r0, some r => some (rateAdd r0 r)
        | some r0, none => some r0
        | none, some r => some r
        | none, none => none := by
  intro o
  induction o with
  | nil =>
    intro m q _
    show alookup q m = _
    rcases alookup q m with _ | r0 <;> simp [alookup]
  | cons pr tl ih =>
    intro m q hnd
    obtain ⟨p0, rr⟩ := pr
    rw [keysOf_cons] at hnd
    have hnd1 : p0 ∉ keysOf tl := (List.nodup_cons.mp hnd).1
    have hnd2 : (keysOf tl).Nodup := (List.nodup_cons.mp hnd).2
    rw [iaddRates_cons]
    rw [ih _ q hnd2]
    by_cases hq : p0 = q
    · subst hq
      have htl : alookup p0 tl = none := (alookup_eq_none_iff p0 tl).mpr hnd1
      rw [htl]
      rcases hm : alookup p0 m with _ | rm
      · have hfound : alookup p0 (m ++ [(p0, rr)]) = some rr := by
          rw [alookup_append]
          simp [hm, alookup]
        simp [hm, hfound, alookup_cons]
      · have hfound : alookup p0 (setk m p0 (rateAdd rm rr)) = some (rateAdd rm rr) := by
          rw [alookup_setk_self, hm]
          rfl
        simp [hm, hfound, alookup_cons]
    · have hcons : alookup q ((p0, rr) :: tl) = alookup q tl := by
        rw [alookup_cons, if_neg hq]
      have hm1 : alookup q
          (match alookup p0 m with
            | some r0 => setk m p0 (rateAdd r0 rr)
            | none => m ++ [(p0, rr)]) = alookup q m := by
        rcases hm : alookup p0 m with _ | rm
        · rw [alookup_append]
          rcases hqm : alookup q m with _ | u <;> simp [alookup, hq]
        · exact alookup_setk_ne q p0 _ m hq
      rw [hm1, hcons]

theorem keysOf_mapval {α β : Type} (f : α → β) (l : List (String × α)) :
    keysOf (l.map (fun pr => (pr.1, f pr.2))) = keysOf l := by
  induction l with
  | nil => rfl
  | cons hd tl ih =>
    obtain ⟨k, v⟩ := hd
    simp only [List.map_cons, keysOf_cons, ih]

/-!
## Sorting and pairing lemmas (`coinc_params`)
-/

theorem mem_insertEv (e x : Event) :
    ∀ l : List Event, x ∈ insertEv e l ↔ x = e ∨ x ∈ l := by
  intro l
  induction l with
  | nil => simp [insertEv]
  | cons hd tl ih =>
    unfold insertEv
    split
    · rw [List.mem_cons, ih, List.mem_cons]
      tauto
    · rw [List.mem_cons, List.mem_cons]

theorem sorted_insertEv (e : Event) :
    ∀ l : List Event, l.Sorted ifoLe → (insertEv e l).Sorted ifoLe := by
  intro l
  induction l with
  | nil =>
    intro _
    simp [insertEv]
  | cons hd tl ih =>
    intro h
    rw [List.sorted_cons] at h
    obtain ⟨hall, htl⟩ := h
    unfold insertEv
    by_cases hle : hd.ifo ≤ e.ifo
    · rw [if_pos hle]
      refine List.sorted_cons.mpr ⟨?_, ih htl⟩
      intro b hb
      rcases (mem_insertEv e b tl).mp hb with hbe | hbl
      · subst hbe
        exact hle
      · exact hall b hbl
    · rw [if_neg hle]
      refine List.sorted_cons.mpr ⟨?_, List.sorted_cons.mpr ⟨hall, htl⟩⟩
      intro b hb
      rcases List.mem_cons.mp hb with hbe | hbl
      · subst hbe
        exact le_of_lt (not_le.mp hle)
      · exact le_trans (le_of_lt (not_le.mp hle)) (hall b hbl)

theorem sortEv_aux_sorted :
    ∀ (l acc : List Event), acc.Sorted ifoLe →
      (l.foldl (fun acc e => insertEv e acc) acc).Sorted ifoLe := by
  intro l
  induction l with
  | nil => intro acc h; exact h
  | cons hd tl ih =>
    intro acc h
    exact ih (insertEv hd acc) (sorted_insertEv hd acc h)

theorem sortEv_sorted (events : List Event) : (sortEv events).Sorted ifoLe :=
  sortEv_aux_sorted events [] (List.sorted_nil)

theorem sortEv_aux_mem :
    ∀ (l acc : List Event) (x : Event),
      x ∈ l.foldl (fun acc e => insertEv e acc) acc ↔ x ∈ l ∨ x ∈ acc := by
  intro l
  induction l with
  | nil => simp
  | cons hd tl ih =>
    intro acc x
    rw [List.foldl_cons, ih (insertEv hd acc) x, mem_insertEv]
    simp
    tauto

theorem mem_sortEv (events : List Event) (x : Event) :
    x ∈ sortEv events ↔ x ∈ events := by
  unfold sortEv
  rw [sortEv_aux_mem]
  simp

theorem pairsOf_mem_components :
    ∀ (l : List Event) (a b : Event), (a, b) ∈ pairsOf l → a ∈ l ∧ b ∈ l := by
  intro l
  induction l with
  | nil => intro a b h; cases h
  | cons hd tl ih =>
    intro a b h
    unfold pairsOf at h
    rcases List.mem_append.mp h with h1 | h1
    · obtain ⟨y, hy, hab⟩ := List.mem_map.mp h1
      rw [Prod.mk.injEq] at hab
      obtain ⟨rfl, rfl⟩ := hab
      exact ⟨List.mem_cons_self _ _, List.mem_cons_of_mem _ hy⟩
    · obtain ⟨ha, hb⟩ := ih a b h1
      exact ⟨List.mem_cons_of_mem _ ha, List.mem_cons_of_mem _ hb⟩

theorem pairsOf_sorted_le :
    ∀ l : List Event, l.Sorted ifoLe → ∀ a b : Event,
      (a, b) ∈ pairsOf l → a.ifo ≤ b.ifo := by
  intro l
  induction l with
  | nil => intro _ a b h; cases h
  | cons hd tl ih =>
    intro hs a b h
    rw [List.sorted_cons] at hs
    obtain ⟨hall, htl⟩ := hs
    unfold pairsOf at h
    rcases List.mem_append.mp h with h1 | h1
    · obtain ⟨y, hy, hab⟩ := List.mem_map.mp h1
      rw [Prod.mk.injEq] at hab
      obtain ⟨rfl, rfl⟩ := hab
      exact hall y hy
    · exact ih htl a b h1

theorem pairsOf_mem_of_lt :
    ∀ l : List Event, l.Sorted ifoLe → ∀ a b : Event,
      a ∈ l → b ∈ l → a.ifo < b.ifo → (a, b) ∈ pairsOf l := by
  intro l
  induction l with
  | nil => intro _ a b ha; cases ha
  | cons hd tl ih =>
    intro hs a b ha hb hab
    rw [List.sorted_cons] at hs
    obtain ⟨hall, htl⟩ := hs
    unfold pairsOf
    rcases List.mem_cons.mp ha with ha1 | ha1
    · subst ha1
      rcases List.mem_cons.mp hb with hb1 | hb1
      · subst hb1
        exact absurd hab (lt_irrefl _)
      · exact List.mem_append.mpr (Or.inl (List.mem_map.mpr ⟨b, hb1, rfl⟩))
    · rcases List.mem_cons.mp hb with hb1 | hb1
      · subst hb1
        exact absurd hab (not_lt.mpr (hall a ha1))
      · exact List.mem_append.mpr (Or.inr (ih htl a b ha1 hb1 hab))

/-!
## Smallest-delta fold lemmas
-/

theorem alookup_updMin (ps : List (String × ℚ)) (n : String) (v : ℚ) (k : String) :
    alookup k (updMin ps n v) =
      if n = k then betterAbs (alookup k ps) v else alookup k ps := by
  by_cases hk : n = k
  · subst hk
    rcases hn : alookup n ps with _ | w
    · simp only [updMin, hn, betterAbs, if_pos rfl]
      rw [alookup_append, hn]
      simp [alookup]
    · simp only [updMin, hn, betterAbs, if_pos rfl]
      by_cases habs : |w| > |v|
      · rw [if_pos habs, if_pos habs, alookup_setk_self, hn]
        rfl
      · rw [if_neg habs, if_neg habs, hn]
        simp
  · rcases hn : alookup n ps with _ | w
    · simp only [updMin, hn, if_neg hk]
      rw [alookup_append]
      rcases hq : alookup k ps with _ | u
      · simp [alookup, hk]
      · simp
    · simp only [updMin, hn, if_neg hk]
      by_cases habs : |w| > |v|
      · rw [if_pos habs]
        exact alookup_setk_ne k n _ ps hk
      · rw [if_neg habs]

theorem lookup_foldl_updMin :
    ∀ (L : List (String × ℚ)) (ps : List (String × ℚ)) (k : String),
      alookup k (L.foldl (fun ps nv => updMin ps nv.1 nv.2) ps) =
        (L.filterMap (fun nv => if nv.1 = k then some nv.2 else none)).foldl
          betterAbs (alookup k ps) := by
  intro L
  induction L with
  | nil => intro ps k; rfl
  | cons hd tl ih =>
    intro ps k
    obtain ⟨n, v⟩ := hd
    rw [List.foldl_cons, ih (updMin ps n v) k, alookup_updMin]
    by_cases hk : n = k
    · rw [if_pos hk]
      simp [List.filterMap_cons, hk]
    · rw [if_neg hk]
      simp [List.filterMap_cons, hk]

theorem betterAbs_fold_some :
    ∀ (L : List ℚ) (acc : Option ℚ) (v : ℚ),
      L.foldl betterAbs acc = some v → v ∈ L ∨ acc = some v := by
  intro L
  induction L with
  | nil =>
    intro acc v h
    exact Or.inr h
  | cons hd tl ih =>
    intro acc v h
    rw [List.foldl_cons] at h
    rcases ih (betterAbs acc hd) v h with h1 | h1
    · exact Or.inl (List.mem_cons_of_mem _ h1)
    · rcases acc with _ | w
      · simp only [betterAbs] at h1
        rw [Option.some.injEq] at h1
        exact Or.inl (h1 ▸ List.mem_cons_self _ _)
      · simp only [betterAbs] at h1
        by_cases habs : |w| > |hd|
        · rw [if_pos habs, Option.some.injEq] at h1
          exact Or.inl (h1 ▸ List.mem_cons_self _ _)
        · rw [if_neg habs] at h1
          exact Or.inr h1

theorem betterAbs_le (acc : Option ℚ) (d w : ℚ) (h : betterAbs acc d = some w) :
    |w| ≤ |d| := by
  rcases acc with _ | u
  · simp only [betterAbs] at h
    rw [Option.some.injEq] at h
    exact h ▸ le_refl _
  · simp only [betterAbs] at h
    by_cases habs : |u| > |d|
    · rw [if_pos habs, Option.some.injEq] at h
      exact h ▸ le_refl _
    · rw [if_neg habs, Option.some.injEq] at h
      exact h ▸ not_lt.mp habs

theorem betterAbs_mono (acc : Option ℚ) (d w u : ℚ) (hacc : acc = some u)
    (h : betterAbs acc d = some w) : |w| ≤ |u| := by
  subst hacc
  simp only [betterAbs] at h
  by_cases habs : |u| > |d|
  · rw [if_pos habs, Option.some.injEq] at h
    exact h ▸ le_of_lt habs
  · rw [if_neg habs, Option.some.injEq] at h
    exact h ▸ le_refl _

theorem betterAbs_isSome (acc : Option ℚ) (d : ℚ) : (betterAbs acc d).isSome := by
  unfold betterAbs
  rcases acc with _ | u
  · rfl
  · by_cases habs : |u| > |d| <;> simp [habs]

theorem betterAbs_fold_le :
    ∀ (L : List ℚ) (acc : Option ℚ) (v : ℚ),
      L.foldl betterAbs acc = some v →
        (∀ d ∈ L, |v| ≤ |d|) ∧ (∀ w, acc = some w → |v| ≤ |w|) := by
  intro L
  induction L with
  | nil =>
    intro acc v h
    rw [List.foldl_nil] at h
    refine ⟨fun d hd => absurd hd (List.not_mem_nil d), fun w hw => ?_⟩
    rw [hw, Option.some.injEq] at h
    exact le_of_eq (by rw [h])
  | cons hd tl ih =>
    intro acc v h
    rw [List.foldl_cons] at h
    obtain ⟨htl, hacc⟩ := ih (betterAbs acc hd) v h
    rcases hsome : betterAbs acc hd with _ | w0
    · have := betterAbs_isSome acc hd
      rw [hsome] at this
      cases this
    · have hw0 : |v| ≤ |w0| := hacc w0 hsome
      refine ⟨?_, ?_⟩
      · intro d hd'
        rcases List.mem_cons.mp hd' with h1 | h1
        · subst h1
          exact le_trans hw0 (betterAbs_le acc d w0 hsome)
        · exact htl d h1
      · intro w hw
        exact le_trans hw0 (betterAbs_mono acc hd w0 w hw hsome)

theorem betterAbs_fold_isSome :
    ∀ (L : List ℚ) (acc : Option ℚ), (acc.isSome ∨ L ≠ []) →
      (L.foldl betterAbs acc).isSome := by
  intro L
  induction L with
  | nil =>
    intro acc h
    rcases h with h | h
    · exact h
    · exact absurd rfl h
  | cons hd tl ih =>
    intro acc _
    rw [List.foldl_cons]
    exact ih (betterAbs acc hd) (Or.inl (betterAbs_isSome acc hd))

theorem coinc_params_fold (off : String → ℚ) :
    ∀ (l : List (Event × Event)) (init : List (String × ℚ)),
      l.foldl
        (fun ps pr =>
          if pr.1.ifo = pr.2.ifo then ps
          else (pairUpdates off pr.1 pr.2).foldl (fun ps nv => updMin ps nv.1 nv.2) ps)
        init =
      (l.flatMap (fun pr => if pr.1.ifo = pr.2.ifo then [] else pairUpdates off pr.1 pr.2)).foldl
        (fun ps nv => updMin ps nv.1 nv.2) init := by
  intro l
  induction l with
  | nil => intro init; rfl
  | cons hd tl ih =>
    intro init
    rw [List.foldl_cons, List.flatMap_cons, List.foldl_append, ih]
    by_cases h : hd.1.ifo = hd.2.ifo
    · rw [if_pos h, if_pos h, List.foldl_nil]
    · rw [if_neg h, if_neg h]

theorem coinc_params_ok (events : List Event) (off : String → ℚ)
    (ps : List (String × ℚ)) (h : coinc_params events off = Except.ok ps) :
    ps = (allUpdates off events).foldl (fun ps nv => updMin ps nv.1 nv.2) [] := by
  unfold coinc_params at h
  split_ifs at h
  rw [Except.ok.injEq] at h
  rw [← h, allUpdates, ← coinc_params_fold]

/-!
## Further helper lemmas
-/

theorem keysOf_iaddRates_mem :
    ∀ (o m : List (String × Rate)) (k : String),
      k ∈ keysOf (iaddRates m o) ↔ k ∈ keysOf m ∨ k ∈ keysOf o := by
  intro o
  induction o with
  | nil =>
    intro m k
    simp [iaddRates, keysOf]
  | cons pr tl ih =>
    intro m k
    obtain ⟨p0, rr⟩ := pr
    rw [iaddRates_cons, ih, keysOf_cons, List.mem_cons]
    rcases hm : alookup p0 m with _ | rm
    · rw [keysOf_append, List.mem_append, keysOf_cons]
      simp only [keysOf, List.map_nil, List.mem_singleton]
      tauto
    · rw [keysOf_setk]
      have hp0 : p0 ∈ keysOf m := by
        have := alookup_isSome_iff p0 m
        simp [hm] at this
        exact this
      constructor
      · intro h
        tauto
      · intro h
        rcases h with h | h | h
        · exact Or.inl h
        · exact Or.inl (h ▸ hp0)
        · exact Or.inr h

theorem keysAligned_of_eq (d d' : CoincParamsDistributions)
    (hb : keysOf d'.background_rates = keysOf d.background_rates)
    (hi : keysOf d'.injection_rates = keysOf d.injection_rates)
    (h : keysAligned d) : keysAligned d' := by
  unfold keysAligned at h ⊢
  rw [hb, hi]
  exact h

theorem add_background_ok (d : CoincParamsDistributions) (ps : List (String × ℚ))
    (d' : CoincParamsDistributions) (h : add_background d ps = Except.ok d') :
    ∃ l', addToRates d.background_rates ps = Except.ok l' ∧
      d' = { d with background_rates := l' } := by
  unfold add_background at h
  rcases hl : addToRates d.background_rates ps with e | l'
  · rw [hl] at h
    cases h
  · rw [hl] at h
    refine ⟨l', rfl, ?_⟩
    simp only [Except.map] at h
    rw [Except.ok.injEq] at h
    exact h.symm

theorem add_injection_ok (d : CoincParamsDistributions) (ps : List (String × ℚ))
    (d' : CoincParamsDistributions) (h : add_injection d ps = Except.ok d') :
    ∃ l', addToRates d.injection_rates ps = Except.ok l' ∧
      d' = { d with injection_rates := l' } := by
  unfold add_injection at h
  rcases hl : addToRates d.injection_rates ps with e | l'
  · rw [hl] at h
    cases h
  · rw [hl] at h
    refine ⟨l', rfl, ?_⟩
    simp only [Except.map] at h
    rw [Except.ok.injEq] at h
    exact h.symm

theorem addToRates_records (l : List (String × Rate)) (ps : List (String × ℚ))
    (l' : List (String × Rate)) (hwf : ∀ pr ∈ l, wfRate pr.2)
    (hnd : (ps.map Prod.fst).Nodup) (h : addToRates l ps = Except.ok l') :
    recordedOK l l' ps := by
  intro p v hpv
  have hp : p ∈ keysOf l := by
    have := (addToRates_ok_iff ps l).mp ⟨l', h⟩
    exact this (p, v) hpv
  rcases hr : alookup p l with _ | r
  · rw [alookup_eq_none_iff] at hr
    exact absurd hp hr
  · refine ⟨r, tryIncr r v, rfl, addToRates_lookup_mem ps l l' hnd h p v hpv r hr, ?_, ?_⟩
    · intro hout
      rw [tryIncr_out r v hout]
    · intro hin
      have hwfr : wfRate r := hwf (p, r) (alookup_mem p r l hr)
      have hlt : binIdx r v < r.array.length := wf_binIdx_lt r hwfr v hin
      exact ⟨hlt, tryIncr_in r v hin hlt⟩

/-!
## Claim theorems
-/

/-- C1: for every `CoincParamsDistributions` in which every tracked histogram
has recorded at least one in-range value (nonnegative counts with a positive
bin) and carries a genuine smoothing kernel, `finish()` leaves every
background and injection histogram with bin values summing to exactly 1,
because it smooths each histogram and then divides its bin values by their
own total sum. -/
theorem c1_finish_normalizes (d : CoincParamsDistributions)
    (hb : ∀ pr ∈ d.background_rates, goodRateState pr.2)
    (hj : ∀ pr ∈ d.injection_rates, goodRateState pr.2) :
    (∀ p r, alookup p (finish d).background_rates = some r → r.array.sum = 1) ∧
      (∀ p r, alookup p (finish d).injection_rates = some r → r.array.sum = 1) := by
  constructor
  · intro p r hr
    have hmap : alookup p (finish d).background_rates =
        (alookup p d.background_rates).map finishRate :=
      alookup_map_val p finishRate d.background_rates
    rw [hmap] at hr
    rcases h0 : alookup p d.background_rates with _ | r0
    · rw [h0] at hr
      cases hr
    · rw [h0] at hr
      rw [Option.map_some', Option.some.injEq] at hr
      rw [← hr]
      exact finishRate_sum_one r0 (hb (p, r0) (alookup_mem p r0 _ h0))
  · intro p r hr
    have hmap : alookup p (finish d).injection_rates =
        (alookup p d.injection_rates).map finishRate :=
      alookup_map_val p finishRate d.injection_rates
    rw [hmap] at hr
    rcases h0 : alookup p d.injection_rates with _ | r0
    · rw [h0] at hr
      cases hr
    · rw [h0] at hr
      rw [Option.map_some', Option.some.injEq] at hr
      rw [← hr]
      exact finishRate_sum_one r0 (hj (p, r0) (alookup_mem p r0 _ h0))

/-- C1 witness: the theorem applied to the concrete accumulator `dW1`. -/
theorem c1_witness :
    (∀ p r, alookup p (finish dW1).background_rates = some r → r.array.sum = 1) ∧
      (∀ p r, alookup p (finish dW1).injection_rates = some r → r.array.sum = 1) :=
  c1_finish_normalizes dW1 (by decide) (by decide)

/-- C7: `finish()` is not idempotent — on the concrete state `dC7` a second
`finish()` re-smooths and re-normalizes, changing the bin values. -/
theorem c7_finish_not_idempotent :
    (alookup "p" (finish (finish dC7)).background_rates).map Rate.array ≠
      (alookup "p" (finish dC7).background_rates).map Rate.array := by
  have h1 : (alookup "p" (finish dC7).background_rates).map Rate.array =
      some [(1 : ℚ)/2, (1 : ℚ)/2, 0] := by
    norm_num [finish, dC7, alookup, finishRate, rateC7, smooth, smoothEntry, smoothTerm,
      List.range_succ, Int.toNat, List.getD]
  have h2 : (alookup "p" (finish (finish dC7)).background_rates).map Rate.array =
      some [(2 : ℚ)/5, (2 : ℚ)/5, (1 : ℚ)/5] := by
    norm_num [finish, dC7, alookup, finishRate, rateC7, smooth, smoothEntry, smoothTerm,
      List.range_succ, Int.toNat, List.getD]
  rw [h1, h2]
  intro hcontra
  rw [Option.some.injEq, List.cons.injEq] at hcontra
  exact absurd hcontra.1 (by norm_num)

/-- C3: the in-place merge `a += b` unions the parameter sets; a parameter
known to both sides ends up with the bin-for-bin sum of the two histograms,
and a parameter known to one side only keeps that side's histogram
unchanged (in both the background and injection mappings). -/
theorem c3_iadd_merge (a b : CoincParamsDistributions)
    (hnb : (keysOf b.background_rates).Nodup)
    (hni : (keysOf b.injection_rates).Nodup) :
    (∀ p ra rb, alookup p a.background_rates = some ra →
      alookup p b.background_rates = some rb →
      alookup p (iadd a b).background_rates = some (rateAdd ra rb)) ∧
    (∀ p ra, alookup p a.background_rates = some ra →
      alookup p b.background_rates = none →
      alookup p (iadd a b).background_rates = some ra) ∧
    (∀ p rb, alookup p a.background_rates = none →
      alookup p b.background_rates = some rb →
      alookup p (iadd a b).background_rates = some rb) ∧
    (∀ p, (alookup p (iadd a b).background_rates).isSome ↔
      (alookup p a.background_rates).isSome ∨ (alookup p b.background_rates).isSome) ∧
    (∀ p ra rb, alookup p a.injection_rates = some ra →
      alookup p b.injection_rates = some rb →
      alookup p (iadd a b).injection_rates = some (rateAdd ra rb)) ∧
    (∀ p ra, alookup p a.injection_rates = some ra →
      alookup p b.injection_rates = none →
      alookup p (iadd a b).injection_rates = some ra) ∧
    (∀ p rb, alookup p a.injection_rates = none →
      alookup p b.injection_rates = some rb →
      alookup p (iadd a b).injection_rates = some rb) ∧
    (∀ p, (alookup p (iadd a b).injection_rates).isSome ↔
      (alookup p a.injection_rates).isSome ∨ (alookup p b.injection_rates).isSome) := by
  have hbg : ∀ p, alookup p (iadd a b).background_rates =
      match alookup p a.background_rates, alookup p b.background_rates with
      | some r0, some r => some (rateAdd r0 r)
      | some r0, none => some r0
      | none, some r => some r
      | none, none => none :=
    fun p => iaddRates_lookup b.background_rates a.background_rates p hnb
  have hinj : ∀ p, alookup p (iadd a b).injection_rates =
      match alookup p a.injection_rates, alookup p b.injection_rates with
      | some r0, some r => some (rateAdd r0 r)
      | some r0, none => some r0
      | none, some r => some r
      | none, none => none :=
    fun p => iaddRates_lookup b.injection_rates a.injection_rates p hni
  refine ⟨?_, ?_, ?_, ?_, ?_, ?_, ?_, ?_⟩
  · intro p ra rb h1 h2
    rw [hbg p, h1, h2]
  · intro p ra h1 h2
    rw [hbg p, h1, h2]
  · intro p rb h1 h2
    rw [hbg p, h1, h2]
  · intro p
    rw [hbg p]
    rcases alookup p a.background_rates with _ | ra <;>
      rcases alookup p b.background_rates with _ | rb <;> simp
  · intro p ra rb h1 h2
    rw [hinj p, h1, h2]
  · intro p ra h1 h2
    rw [hinj p, h1, h2]
  · intro p rb h1 h2
    rw [hinj p, h1, h2]
  · intro p
    rw [hinj p]
    rcases alookup p a.injection_rates with _ | ra <;>
      rcases alookup p b.injection_rates with _ | rb <;> simp

/-- C3 witness: merging the concrete accumulators `dMergeA` and `dMergeB` —
the shared parameter `"a"` is summed bin for bin, `"b"` and `"c"` pass
through unchanged. -/
theorem c3_witness :
    alookup "a" (iadd dMergeA dMergeB).background_rates =
      some (rateAdd { lo := 0, hi := 2, binWidth := 1, array := [1, 2], window := [1] }
        { lo := 0, hi := 2, binWidth := 1, array := [10, 20], window := [1] }) ∧
    alookup "b" (iadd dMergeA dMergeB).background_rates =
      some { lo := 0, hi := 1, binWidth := 1, array := [7], window := [1] } ∧
    alookup "c" (iadd dMergeA dMergeB).injection_rates =
      some { lo := 0, hi := 1, binWidth := 1, array := [11], window := [1] } := by
  have h := c3_iadd_merge dMergeA dMergeB (by decide) (by decide)
  exact ⟨h.1 "a" _ _ rfl rfl, h.2.1 "b" _ rfl rfl, h.2.2.2.2.2.2.1 "c" _ rfl rfl⟩

/-- C6 counterexample: a single `add_background` call whose parameter
dictionary names a parameter absent from the configured mappings raises a
`KeyError` — the call does not proceed silently. -/
theorem c6_counterexample :
    add_background { background_rates := [], injection_rates := [] } [("x", 0)] =
      Except.error "x" := rfl

/-- C6 (amended): an `add_background`/`add_injection` call succeeds exactly
when every parameter name in the computed dictionary is among the configured
ones; out-of-range values never make it fail, but an absent parameter name
raises a `KeyError`. -/
theorem c6_amended (d : CoincParamsDistributions) (ps : List (String × ℚ)) :
    ((∃ d', add_background d ps = Except.ok d') ↔
      ∀ pv ∈ ps, pv.1 ∈ keysOf d.background_rates) ∧
    ((∃ d', add_injection d ps = Except.ok d') ↔
      ∀ pv ∈ ps, pv.1 ∈ keysOf d.injection_rates) := by
  constructor
  · rw [← addToRates_ok_iff ps d.background_rates]
    constructor
    · rintro ⟨d', hd'⟩
      unfold add_background at hd'
      rcases hl : addToRates d.background_rates ps with e | l'
      · rw [hl] at hd'
        cases hd'
      · exact ⟨l', rfl⟩
    · rintro ⟨l', hl'⟩
      refine ⟨{ d with background_rates := l' }, ?_⟩
      unfold add_background
      rw [hl']
      rfl
  · rw [← addToRates_ok_iff ps d.injection_rates]
    constructor
    · rintro ⟨d', hd'⟩
      unfold add_injection at hd'
      rcases hl : addToRates d.injection_rates ps with e | l'
      · rw [hl] at hd'
        cases hd'
      · exact ⟨l', rfl⟩
    · rintro ⟨l', hl'⟩
      refine ⟨{ d with injection_rates := l' }, ?_⟩
      unfold add_injection
      rw [hl']
      rfl

/-- C6 witness: on the configured accumulator `dW4`, a call recording an
in-range and an out-of-range value succeeds. -/
theorem c6_witness :
    (add_background dW4 [("a", (1 : ℚ)/2), ("b", 5)]).isOk = true := by
  obtain ⟨d', hd'⟩ := (c6_amended dW4 [("a", (1 : ℚ)/2), ("b", 5)]).1.mpr (by decide)
  rw [hd']
  rfl

/-- C8: the background and injection mappings always track the same parameter
names: construction creates matching histograms, and recording, filter
installation, finishing and in-place merge all preserve the alignment. -/
theorem c8_keys_aligned :
    (∀ cfg, keysAligned (mkCPD cfg)) ∧
    (∀ d ps d', add_background d ps = Except.ok d' → keysAligned d → keysAligned d') ∧
    (∀ d ps d', add_injection d ps = Except.ok d' → keysAligned d → keysAligned d') ∧
    (∀ d p w d', set_filter d p w = Except.ok d' → keysAligned d → keysAligned d') ∧
    (∀ d, keysAligned d → keysAligned (finish d)) ∧
    (∀ a b, keysAligned a → keysAligned b → keysAligned (iadd a b)) := by
  refine ⟨?_, ?_, ?_, ?_, ?_, ?_⟩
  · intro cfg
    have hbk : keysOf (mkCPD cfg).background_rates = keysOf cfg := by
      simp [mkCPD, keysOf, List.map_map, Function.comp]
    have hik : keysOf (mkCPD cfg).injection_rates = keysOf cfg := by
      simp [mkCPD, keysOf, List.map_map, Function.comp]
    constructor
    · intro k hk
      rw [hik]
      rw [hbk] at hk
      exact hk
    · intro k hk
      rw [hbk]
      rw [hik] at hk
      exact hk
  · intro d ps d' h hal
    obtain ⟨l', hl', rfl⟩ := add_background_ok d ps d' h
    exact keysAligned_of_eq d _ (addToRates_ok_keys ps _ _ hl') rfl hal
  · intro d ps d' h hal
    obtain ⟨l', hl', rfl⟩ := add_injection_ok d ps d' h
    exact keysAligned_of_eq d _ rfl (addToRates_ok_keys ps _ _ hl') hal
  · intro d p w d' h hal
    rcases hbl : alookup p d.background_rates with _ | rb
    · rcases hil : alookup p d.injection_rates with _ | ri <;>
        · simp only [set_filter, hbl, hil] at h
          exact Except.noConfusion h
    · rcases hil : alookup p d.injection_rates with _ | ri
      · simp only [set_filter, hbl, hil] at h
        exact Except.noConfusion h
      · simp only [set_filter, hbl, hil, Except.ok.injEq] at h
        refine keysAligned_of_eq d d' ?_ ?_ hal
        · rw [← h]
          exact keysOf_setk _ _ _
        · rw [← h]
          exact keysOf_setk _ _ _
  · intro d hal
    exact keysAligned_of_eq d (finish d) (keysOf_mapval _ _) (keysOf_mapval _ _) hal
  · intro a b hala halb
    constructor
    · intro k hk
      have hk' : k ∈ keysOf (iaddRates a.background_rates b.background_rates) := hk
      rw [keysOf_iaddRates_mem] at hk'
      show k ∈ keysOf (iaddRates a.injection_rates b.injection_rates)
      rw [keysOf_iaddRates_mem]
      rcases hk' with hk' | hk'
      · exact Or.inl (hala.1 k hk')
      · exact Or.inr (halb.1 k hk')
    · intro k hk
      have hk' : k ∈ keysOf (iaddRates a.injection_rates b.injection_rates) := hk
      rw [keysOf_iaddRates_mem] at hk'
      show k ∈ keysOf (iaddRates a.background_rates b.background_rates)
      rw [keysOf_iaddRates_mem]
      rcases hk' with hk' | hk'
      · exact Or.inl (hala.2 k hk')
      · exact Or.inr (halb.2 k hk')

/-- C8 witness: a freshly configured accumulator and the merge of the
concrete accumulators `dMergeA` and `dMergeB` are key-aligned. -/
theorem c8_witness :
    keysAligned (mkCPD [("a", ((0, 1), 1))]) ∧ keysAligned (iadd dMergeA dMergeB) :=
  ⟨c8_keys_aligned.1 [("a", ((0, 1), 1))],
    c8_keys_aligned.2.2.2.2.2 dMergeA dMergeB (by decide) (by decide)⟩

/-- C4: an `add_background`/`add_injection` call over a parameter dictionary
of configured names never raises: each out-of-interval value leaves that
parameter's bin counts unchanged, each in-interval value adds `1.0` to exactly
the bin containing it (in the targeted mapping only). -/
theorem c4_add_records (d : CoincParamsDistributions) (ps : List (String × ℚ))
    (hwfb : ∀ pr ∈ d.background_rates, wfRate pr.2)
    (hwfi : ∀ pr ∈ d.injection_rates, wfRate pr.2)
    (hnd : (ps.map Prod.fst).Nodup)
    (hkb : ∀ pv ∈ ps, pv.1 ∈ keysOf d.background_rates)
    (hki : ∀ pv ∈ ps, pv.1 ∈ keysOf d.injection_rates) :
    (∃ d', add_background d ps = Except.ok d' ∧ d'.injection_rates = d.injection_rates ∧
      recordedOK d.background_rates d'.background_rates ps) ∧
    (∃ d', add_injection d ps = Except.ok d' ∧ d'.background_rates = d.background_rates ∧
      recordedOK d.injection_rates d'.injection_rates ps) := by
  constructor
  · obtain ⟨l', hl'⟩ := (addToRates_ok_iff ps d.background_rates).mpr hkb
    refine ⟨{ d with background_rates := l' }, ?_, rfl, ?_⟩
    · unfold add_background
      rw [hl']
      rfl
    · exact addToRates_records d.background_rates ps l' hwfb hnd hl'
  · obtain ⟨l', hl'⟩ := (addToRates_ok_iff ps d.injection_rates).mpr hki
    refine ⟨{ d with injection_rates := l' }, ?_, rfl, ?_⟩
    · unfold add_injection
      rw [hl']
      rfl
    · exact addToRates_records d.injection_rates ps l' hwfi hnd hl'

/-- C4 witness: the theorem applied to the freshly configured `dW4` with one
out-of-interval value (`5` for `"a"` over `[0, 1)`) and one in-interval value
(`1/2` for `"b"` over `[0, 2)`). -/
theorem c4_witness :
    (∃ d', add_background dW4 [("a", 5), ("b", (1 : ℚ)/2)] = Except.ok d' ∧
      d'.injection_rates = dW4.injection_rates ∧
      recordedOK dW4.background_rates d'.background_rates [("a", 5), ("b", (1 : ℚ)/2)]) ∧
    (∃ d', add_injection dW4 [("a", 5), ("b", (1 : ℚ)/2)] = Except.ok d' ∧
      d'.background_rates = dW4.background_rates ∧
      recordedOK dW4.injection_rates d'.injection_rates [("a", 5), ("b", (1 : ℚ)/2)]) :=
  c4_add_records dW4 [("a", 5), ("b", (1 : ℚ)/2)]
    (by norm_num [dW4, mkCPD, mkRate, wfRate])
    (by norm_num [dW4, mkCPD, mkRate, wfRate])
    (by decide) (by decide) (by decide)

/-!
## CLI-check lemmas (`plot_likelihood.py`)
-/

theorem glob_msg_ne (s t : String) : "The glob for " ++ s ++ t ≠ "" := by
  intro h
  rw [String.ext_iff] at h
  rw [String.data_append, String.data_append] at h
  rw [List.append_eq_nil, List.append_eq_nil] at h
  exact absurd h.1.1 (by decide)

theorem globCheck_error_shape (globber : String → List String) (g : Option String)
    (suffix : String) (e : Nat × String) (h : globCheck globber g suffix = Except.error e) :
    e.1 = 1 ∧ e.2 ≠ "" := by
  rcases g with _ | s
  · cases h
  · simp only [globCheck] at h
    by_cases hs : s = ""
    · rw [if_pos hs] at h
      cases h
    · rw [if_neg hs] at h
      by_cases hlen : (globber s).length < 1
      · rw [if_pos hlen] at h
        rw [Except.error.injEq] at h
        rw [← h]
        exact ⟨rfl, glob_msg_ne s suffix⟩
      · rw [if_neg hlen] at h
        cases h

theorem globCheck_ok_not (globber : String → List String) (g : Option String)
    (suffix : String) (h : globCheck globber g suffix = Except.ok ()) :
    ¬suppliedEmptyGlob globber g := by
  rintro ⟨s, rfl, hne, hempty⟩
  simp only [globCheck] at h
  rw [if_neg hne, if_pos (by rw [hempty]; exact Nat.zero_lt_one)] at h
  cases h

theorem checkOptions_parts (globber : String → List String) (o : PlotOpts) (u : Unit)
    (h : checkOptions globber o = Except.ok u) :
    globCheck globber o.zero_glob " returned no files" = Except.ok () ∧
    globCheck globber o.slide_glob " returned no files" = Except.ok () ∧
    globCheck globber o.injection_glob "returned no files" = Except.ok () ∧
    globCheck globber o.found_glob "returned no files " = Except.ok () ∧
    globCheck globber o.missed_glob "returned no files " = Except.ok () ∧
    o.statistic ∈ validStatistics := by
  unfold checkOptions at h
  rcases h1 : globCheck globber o.zero_glob " returned no files" with e1 | u1
  · rw [h1] at h
    cases h
  · rw [h1] at h
    rcases h2 : globCheck globber o.slide_glob " returned no files" with e2 | u2
    · rw [h2] at h
      cases h
    · rw [h2] at h
      rcases h3 : globCheck globber o.injection_glob "returned no files" with e3 | u3
      · rw [h3] at h
        cases h
      · rw [h3] at h
        rcases h4 : globCheck globber o.found_glob "returned no files " with e4 | u4
        · rw [h4] at h
          cases h
        · rw [h4] at h
          rcases h5 : globCheck globber o.missed_glob "returned no files " with e5 | u5
          · rw [h5] at h
            cases h
          · rw [h5] at h
            by_cases hstat : o.statistic ∈ validStatistics
            · exact ⟨by cases u1; rfl, by cases u2; rfl, by cases u3; rfl,
                by cases u4; rfl, by cases u5; rfl, hstat⟩
            · rw [if_neg hstat] at h
              cases h

theorem checkOptions_error_shape (globber : String → List String) (o : PlotOpts)
    (e : Nat × String) (h : checkOptions globber o = Except.error e) :
    e.1 = 1 ∧ e.2 ≠ "" := by
  unfold checkOptions at h
  rcases h1 : globCheck globber o.zero_glob " returned no files" with e1 | u1
  · rw [h1] at h
    rw [Except.error.injEq] at h
    exact h ▸ globCheck_error_shape globber o.zero_glob _ e1 h1
  · rw [h1] at h
    rcases h2 : globCheck globber o.slide_glob " returned no files" with e2 | u2
    · rw [h2] at h
      rw [Except.error.injEq] at h
      exact h ▸ globCheck_error_shape globber o.slide_glob _ e2 h2
    · rw [h2] at h
      rcases h3 : globCheck globber o.injection_glob "returned no files" with e3 | u3
      · rw [h3] at h
        rw [Except.error.injEq] at h
        exact h ▸ globCheck_error_shape globber o.injection_glob _ e3 h3
      · rw [h3] at h
        rcases h4 : globCheck globber o.found_glob "returned no files " with e4 | u4
        · rw [h4] at h
          rw [Except.error.injEq] at h
          exact h ▸ globCheck_error_shape globber o.found_glob _ e4 h4
        · rw [h4] at h
          rcases h5 : globCheck globber o.missed_glob "returned no files " with e5 | u5
          · rw [h5] at h
            rw [Except.error.injEq] at h
            exact h ▸ globCheck_error_shape globber o.missed_glob _ e5 h5
          · rw [h5] at h
            by_cases hstat : o.statistic ∈ validStatistics
            · rw [if_pos hstat] at h
              cases h
            · rw [if_neg hstat] at h
              rw [Except.error.injEq] at h
              refine h ▸ ⟨rfl, ?_⟩
              intro hmsg
              exact absurd hmsg (by decide)

/-- C9: if the `--statistic` value is not one of the six valid choices, or
any supplied file-glob option matches no files, the option-validation phase
of `plot_likelihood.py` exits with status 1 after writing a non-empty
diagnostic to the standard error stream. -/
theorem c9_cli_checks (globber : String → List String) (o : PlotOpts)
    (h : o.statistic ∉ validStatistics ∨
      suppliedEmptyGlob globber o.zero_glob ∨
      suppliedEmptyGlob globber o.slide_glob ∨
      suppliedEmptyGlob globber o.injection_glob ∨
      suppliedEmptyGlob globber o.found_glob ∨
      suppliedEmptyGlob globber o.missed_glob) :
    ∃ m, checkOptions globber o = Except.error (1, m) ∧ m ≠ "" := by
  rcases hres : checkOptions globber o with e | u
  · obtain ⟨h1, h2⟩ := checkOptions_error_shape globber o e hres
    refine ⟨e.2, ?_, h2⟩
    rw [Except.error.injEq]
    obtain ⟨e1, e2⟩ := e
    rw [Prod.mk.injEq]
    exact ⟨h1, rfl⟩
  · obtain ⟨hz, hs, hi, hf, hm, hstat⟩ := checkOptions_parts globber o u hres
    rcases h with h | h | h | h | h | h
    · exact absurd hstat h
    · exact absurd h (globCheck_ok_not globber o.zero_glob _ hz)
    · exact absurd h (globCheck_ok_not globber o.slide_glob _ hs)
    · exact absurd h (globCheck_ok_not globber o.injection_glob _ hi)
    · exact absurd h (globCheck_ok_not globber o.found_glob _ hf)
    · exact absurd h (globCheck_ok_not globber o.missed_glob _ hm)

/-- C9 witness: the theorem applied to a concrete option set with an invalid
statistic, and to one with a supplied glob matching no files. -/
theorem c9_witness :
    (∃ m, checkOptions (fun _ => [])
      { found_glob := none, missed_glob := none, injection_glob := none,
        slide_glob := none, zero_glob := none, statistic := "bogus" } =
        Except.error (1, m) ∧ m ≠ "") ∧
    (∃ m, checkOptions (fun _ => [])
      { found_glob := none, missed_glob := none, injection_glob := none,
        slide_glob := some "x*", zero_glob := none, statistic := "snr" } =
        Except.error (1, m) ∧ m ≠ "") :=
  ⟨c9_cli_checks (fun _ => [])
      { found_glob := none, missed_glob := none, injection_glob := none,
        slide_glob := none, zero_glob := none, statistic := "bogus" }
      (Or.inl (by decide)),
    c9_cli_checks (fun _ => [])
      { found_glob := none, missed_glob := none, injection_glob := none,
        slide_glob := some "x*", zero_glob := none, statistic := "snr" }
      (Or.inr (Or.inr (Or.inl ⟨"x*", rfl, by decide, rfl⟩)))⟩

/-!
## String-shape lemmas for parameter names
-/

theorem append_split_char (a b t : List Char) (h : a ++ '_' :: b = t) :
    t[a.length]? = some '_' ∧ a = t.take a.length ∧ b = t.drop (a.length + 1) := by
  subst h
  refine ⟨?_, ?_, ?_⟩
  · rw [List.getElem?_append_right (le_refl a.length)]
    simp
  · rw [List.take_left]
  · have hsplit : a ++ '_' :: b = (a ++ ['_']) ++ b := by
      rw [List.append_assoc]
      rfl
    rw [hsplit]
    have hlen : (a ++ ['_']).length = a.length + 1 := by simp
    rw [← hlen, List.drop_left]

theorem underscore_pos :
    ∀ n : Nat, (['H', '2', '_', 'H', '1', '_', 'd', 't'] : List Char)[n]? = some '_' →
      n = 2 ∨ n = 5
  | 0, h => absurd h (by decide)
  | 1, h => absurd h (by decide)
  | 2, _ => Or.inl rfl
  | 3, h => absurd h (by decide)
  | 4, h => absurd h (by decide)
  | 5, _ => Or.inr rfl
  | 6, h => absurd h (by decide)
  | 7, h => absurd h (by decide)
  | n + 8, h => by
    rw [List.getElem?_eq_none (by simp)] at h
    cases h

theorem underscore_pos_tail :
    ∀ m : Nat, (['H', '1', '_', 'd', 't'] : List Char)[m]? = some '_' → m = 2
  | 0, h => absurd h (by decide)
  | 1, h => absurd h (by decide)
  | 2, _ => rfl
  | 3, h => absurd h (by decide)
  | 4, h => absurd h (by decide)
  | m + 5, h => by
    rw [List.getElem?_eq_none (by simp)] at h
    cases h

theorem underscore_pos_dt :
    ∀ m : Nat, (['d', 't'] : List Char)[m]? = some '_' → False
  | 0, h => absurd h (by decide)
  | 1, h => absurd h (by decide)
  | m + 2, h => by
    rw [List.getElem?_eq_none (by simp)] at h
    cases h

theorem name_ne_h2h1 (i1 i2 suf : String) (h12 : i1 < i2) :
    i1 ++ "_" ++ i2 ++ "_" ++ suf ≠ "H2_H1_dt" := by
  intro heq
  have hu : ("_" : String).data = ['_'] := rfl
  have htgt : ("H2_H1_dt" : String).data = ['H', '2', '_', 'H', '1', '_', 'd', 't'] := rfl
  have hd : i1.data ++ '_' :: (i2.data ++ '_' :: suf.data) =
      ['H', '2', '_', 'H', '1', '_', 'd', 't'] := by
    have hc := congrArg String.data heq
    rw [String.data_append, String.data_append, String.data_append, String.data_append,
      hu, htgt] at hc
    simpa using hc
  obtain ⟨hget, htake, hdrop⟩ := append_split_char i1.data _ _ hd
  rcases underscore_pos _ hget with hn | hn
  · -- the first separator sits at index 2: i1 = "H2"
    rw [hn] at htake hdrop
    have hi1 : i1.data = ['H', '2'] := htake.trans (by decide)
    have hdrop' : i2.data ++ '_' :: suf.data = ['H', '1', '_', 'd', 't'] :=
      hdrop.trans (by decide)
    obtain ⟨hget2, htake2, _⟩ := append_split_char i2.data _ _ hdrop'
    have hm := underscore_pos_tail _ hget2
    rw [hm] at htake2
    have hi2 : i2.data = ['H', '1'] := htake2.trans (by decide)
    have h1 : i1 = "H2" := String.ext (by rw [hi1])
    have h2 : i2 = "H1" := String.ext (by rw [hi2])
    rw [h1, h2] at h12
    exact absurd h12 (by rw [String.lt_iff_toList_lt]; decide)
  · -- the first separator sits at index 5, leaving ['d', 't'] with no room
    rw [hn] at hdrop
    have hdrop' : i2.data ++ '_' :: suf.data = ['d', 't'] := hdrop.trans (by decide)
    obtain ⟨hget2, _, _⟩ := append_split_char i2.data _ _ hdrop'
    exact underscore_pos_dt _ hget2

/-- All five suffix names a cross-instrument pair contributes. -/
theorem pairUpdates_name_shape (off : String → ℚ) (e1 e2 : Event)
    (nv : String × ℚ) (h : nv ∈ pairUpdates off e1 e2) :
    ∃ suf, (suf = "dt" ∨ suf = "df" ∨ suf = "dh" ∨ suf = "dband" ∨ suf = "ddur") ∧
      nv.1 = e1.ifo ++ "_" ++ e2.ifo ++ "_" ++ suf := by
  unfold pairUpdates at h
  simp only [List.mem_cons, List.not_mem_nil, or_false] at h
  rcases h with h | h | h | h | h
  · exact ⟨"dt", Or.inl rfl, by rw [h]⟩
  · exact ⟨"df", Or.inr (Or.inl rfl), by rw [h]⟩
  · exact ⟨"dh", Or.inr (Or.inr (Or.inl rfl)), by rw [h]⟩
  · exact ⟨"dband", Or.inr (Or.inr (Or.inr (Or.inl rfl))), by rw [h]⟩
  · exact ⟨"ddur", Or.inr (Or.inr (Or.inr (Or.inr rfl))), by rw [h]⟩

/-- Decomposition of a recorded parameter: every name/value looked up in the
result of the pair loop comes from a cross-instrument pair, with the two
detector identifiers in strictly increasing order. -/
theorem coinc_params_key_shape (events : List Event) (off : String → ℚ)
    (ps : List (String × ℚ)) (hok : coinc_params events off = Except.ok ps)
    (k : String) (v : ℚ) (hv : alookup k ps = some v) :
    ∃ e1 e2 suf, e1 ∈ events ∧ e2 ∈ events ∧ e1.ifo < e2.ifo ∧
      (suf = "dt" ∨ suf = "df" ∨ suf = "dh" ∨ suf = "dband" ∨ suf = "ddur") ∧
      k = e1.ifo ++ "_" ++ e2.ifo ++ "_" ++ suf := by
  rw [coinc_params_ok events off ps hok] at hv
  rw [lookup_foldl_updMin] at hv
  rcases betterAbs_fold_some _ _ v hv with hmem | hacc
  · obtain ⟨nv, hnv, hnveq⟩ := List.mem_filterMap.mp hmem
    by_cases hk : nv.1 = k
    · obtain ⟨pr, hpr, hnvin⟩ := List.mem_flatMap.mp hnv
      by_cases hsame : pr.1.ifo = pr.2.ifo
      · rw [if_pos hsame] at hnvin
        cases hnvin
      · rw [if_neg hsame] at hnvin
        obtain ⟨suf, hsuf, hshape⟩ := pairUpdates_name_shape off pr.1 pr.2 nv hnvin
        obtain ⟨hm1, hm2⟩ := pairsOf_mem_components _ _ _ hpr
        refine ⟨pr.1, pr.2, suf, (mem_sortEv events pr.1).mp hm1,
          (mem_sortEv events pr.2).mp hm2, ?_, hsuf, by rw [← hk, hshape]⟩
        exact lt_of_le_of_ne (pairsOf_sorted_le _ (sortEv_sorted events) _ _ hpr)
          (fun he => hsame (by simpa [ifoLe] using he))
    · rw [if_neg hk] at hnveq
      cases hnveq
  · cases hacc

/-- C5: whenever `coinc_params` returns a dictionary for an event list with
`H1` and `H2` triggers, the time-difference parameter for that pair is named
`H1_H2_dt` (present), never `H2_H1_dt` (absent); in general every recorded
name is `<ifo1>_<ifo2>_<suffix>` with the two detector identifiers in strict
alphabetical order. -/
theorem c5_alphabetical_names (events : List Event) (off : String → ℚ)
    (ps : List (String × ℚ)) (hok : coinc_params events off = Except.ok ps)
    (h1 : ∃ e ∈ events, e.ifo = "H1") (h2 : ∃ e ∈ events, e.ifo = "H2") :
    (alookup "H1_H2_dt" ps).isSome ∧
    alookup "H2_H1_dt" ps = none ∧
    (∀ k v, alookup k ps = some v → ∃ e1 e2 suf, e1 ∈ events ∧ e2 ∈ events ∧
      e1.ifo < e2.ifo ∧
      (suf = "dt" ∨ suf = "df" ∨ suf = "dh" ∨ suf = "dband" ∨ suf = "ddur") ∧
      k = e1.ifo ++ "_" ++ e2.ifo ++ "_" ++ suf) := by
  refine ⟨?_, ?_, fun k v hv => coinc_params_key_shape events off ps hok k v hv⟩
  · -- H1_H2_dt is recorded
    obtain ⟨eH1, heH1, hifo1⟩ := h1
    obtain ⟨eH2, heH2, hifo2⟩ := h2
    have hlt : eH1.ifo < eH2.ifo := by
      rw [hifo1, hifo2, String.lt_iff_toList_lt]
      decide
    have hne : eH1.ifo ≠ eH2.ifo := ne_of_lt hlt
    have hpair : (eH1, eH2) ∈ pairsOf (sortEv events) :=
      pairsOf_mem_of_lt _ (sortEv_sorted events) _ _
        ((mem_sortEv events eH1).mpr heH1) ((mem_sortEv events eH2).mpr heH2) hlt
    have hname : eH1.ifo ++ "_" ++ eH2.ifo ++ "_" ++ "dt" = "H1_H2_dt" := by
      rw [hifo1, hifo2]
      exact rfl
    have hdt0 : (eH1.ifo ++ "_" ++ eH2.ifo ++ "_" ++ "dt",
        eH1.peak + off eH1.ifo - eH2.peak - off eH2.ifo) ∈ allUpdates off events := by
      refine List.mem_flatMap.mpr ⟨(eH1, eH2), hpair, ?_⟩
      rw [if_neg hne]
      unfold pairUpdates
      exact List.mem_cons_self _ _
    have hdt : ("H1_H2_dt",
        eH1.peak + off eH1.ifo - eH2.peak - off eH2.ifo) ∈ allUpdates off events := by
      rw [← hname]
      exact hdt0
    have hcand : (eH1.peak + off eH1.ifo - eH2.peak - off eH2.ifo) ∈
        (allUpdates off events).filterMap
          (fun nv => if nv.1 = "H1_H2_dt" then some nv.2 else none) := by
      refine List.mem_filterMap.mpr ⟨_, hdt, ?_⟩
      rw [if_pos rfl]
    rw [coinc_params_ok events off ps hok, lookup_foldl_updMin]
    exact betterAbs_fold_isSome _ _ (Or.inr (List.ne_nil_of_mem hcand))
  · -- H2_H1_dt is never recorded
    rcases hcase : alookup "H2_H1_dt" ps with _ | v
    · rfl
    · obtain ⟨e1, e2, suf, _, _, hlt, _, hshape⟩ :=
        coinc_params_key_shape events off ps hok _ v hcase
      exact absurd hshape.symm (name_ne_h2h1 e1.ifo e2.ifo suf hlt)

/-- C10: whatever value the pair loop stores under a name, it is one of that
name's candidate deltas and has the smallest absolute value among them (in
particular when several pairs share a detector-pair prefix). -/
theorem c10_smallest_delta (events : List Event) (off : String → ℚ)
    (ps : List (String × ℚ)) (hok : coinc_params events off = Except.ok ps) :
    ∀ k v, alookup k ps = some v →
      v ∈ deltasFor off events k ∧ ∀ d ∈ deltasFor off events k, |v| ≤ |d| := by
  intro k v hv
  rw [coinc_params_ok events off ps hok] at hv
  rw [lookup_foldl_updMin] at hv
  have hv' : (deltasFor off events k).foldl betterAbs none = some v := hv
  constructor
  · rcases betterAbs_fold_some _ _ v hv' with hmem | hacc
    · exact hmem
    · cases hacc
  · exact (betterAbs_fold_le _ _ v hv').1

/-- C5 witness: the theorem applied to the concrete pair `[evH1, evH2]`. -/
theorem c5_witness :
    (alookup "H1_H2_dt" cps12).isSome ∧
    alookup "H2_H1_dt" cps12 = none ∧
    (∀ k v, alookup k cps12 = some v → ∃ e1 e2 suf, e1 ∈ [evH1, evH2] ∧ e2 ∈ [evH1, evH2] ∧
      e1.ifo < e2.ifo ∧
      (suf = "dt" ∨ suf = "df" ∨ suf = "dh" ∨ suf = "dband" ∨ suf = "ddur") ∧
      k = e1.ifo ++ "_" ++ e2.ifo ++ "_" ++ suf) := by
  refine c5_alphabetical_names [evH1, evH2] (fun _ => 0) cps12 ?_
    ⟨evH1, List.mem_cons_self _ _, rfl⟩
    ⟨evH2, List.mem_cons_of_mem _ (List.mem_cons_self _ _), rfl⟩
  have hle : ("H1" : String) ≤ "H2" := by rw [String.le_iff_toList_le]; decide
  have ha1 : ("H1" : String) ++ "_" ++ "H2" ++ "_" ++ "dt" = "H1_H2_dt" := rfl
  have ha2 : ("H1" : String) ++ "_" ++ "H2" ++ "_" ++ "df" = "H1_H2_df" := rfl
  have ha3 : ("H1" : String) ++ "_" ++ "H2" ++ "_" ++ "dh" = "H1_H2_dh" := rfl
  have ha4 : ("H1" : String) ++ "_" ++ "H2" ++ "_" ++ "dband" = "H1_H2_dband" := rfl
  have ha5 : ("H1" : String) ++ "_" ++ "H2" ++ "_" ++ "ddur" = "H1_H2_ddur" := rfl
  have hn0 : ("H1" : String) ≠ "H2" := by decide
  have hn1 : ("H1_H2_dt" : String) ≠ "H1_H2_df" := by decide
  have hn2 : ("H1_H2_dt" : String) ≠ "H1_H2_dh" := by decide
  have hn3 : ("H1_H2_dt" : String) ≠ "H1_H2_dband" := by decide
  have hn4 : ("H1_H2_dt" : String) ≠ "H1_H2_ddur" := by decide
  have hn5 : ("H1_H2_df" : String) ≠ "H1_H2_dh" := by decide
  have hn6 : ("H1_H2_df" : String) ≠ "H1_H2_dband" := by decide
  have hn7 : ("H1_H2_df" : String) ≠ "H1_H2_ddur" := by decide
  have hn8 : ("H1_H2_dh" : String) ≠ "H1_H2_dband" := by decide
  have hn9 : ("H1_H2_dh" : String) ≠ "H1_H2_ddur" := by decide
  have hn10 : ("H1_H2_dband" : String) ≠ "H1_H2_ddur" := by decide
  norm_num [coinc_params, cps12, sortEv, insertEv, pairsOf, pairUpdates, updMin, alookup,
    setk, zeroDenom, betterAbs, evH1, evH2, hle, ha1, ha2, ha3, ha4, ha5,
    hn0, hn1, hn2, hn3, hn4, hn5, hn6, hn7, hn8, hn9, hn10,
    hn0.symm, hn1.symm, hn2.symm, hn3.symm, hn4.symm, hn5.symm, hn6.symm, hn7.symm,
    hn8.symm, hn9.symm, hn10.symm]

/-- C10 witness: the theorem applied to `[evH1x, evH1y, evL1]`, in which two
`H1`–`L1` pairs compete for every `H1_L1_*` parameter; the stored time delta
`-1` is a candidate of smallest absolute value. -/
theorem c10_witness :
    (-1 : ℚ) ∈ deltasFor (fun _ => 0) [evH1x, evH1y, evL1] "H1_L1_dt" ∧
      ∀ d ∈ deltasFor (fun _ => 0) [evH1x, evH1y, evL1] "H1_L1_dt", |(-1 : ℚ)| ≤ |d| := by
  refine c10_smallest_delta [evH1x, evH1y, evL1] (fun _ => 0) cps3 ?_ "H1_L1_dt" (-1) rfl
  have hle1 : ("H1" : String) ≤ "H1" := le_refl _
  have hle2 : ("H1" : String) ≤ "L1" := by rw [String.le_iff_toList_le]; decide
  have ha1 : ("H1" : String) ++ "_" ++ "L1" ++ "_" ++ "dt" = "H1_L1_dt" := rfl
  have ha2 : ("H1" : String) ++ "_" ++ "L1" ++ "_" ++ "df" = "H1_L1_df" := rfl
  have ha3 : ("H1" : String) ++ "_" ++ "L1" ++ "_" ++ "dh" = "H1_L1_dh" := rfl
  have ha4 : ("H1" : String) ++ "_" ++ "L1" ++ "_" ++ "dband" = "H1_L1_dband" := rfl
  have ha5 : ("H1" : String) ++ "_" ++ "L1" ++ "_" ++ "ddur" = "H1_L1_ddur" := rfl
  have hn0 : ("H1" : String) ≠ "L1" := by decide
  have hn1 : ("H1_L1_dt" : String) ≠ "H1_L1_df" := by decide
  have hn2 : ("H1_L1_dt" : String) ≠ "H1_L1_dh" := by decide
  have hn3 : ("H1_L1_dt" : String) ≠ "H1_L1_dband" := by decide
  have hn4 : ("H1_L1_dt" : String) ≠ "H1_L1_ddur" := by decide
  have hn5 : ("H1_L1_df" : String) ≠ "H1_L1_dh" := by decide
  have hn6 : ("H1_L1_df" : String) ≠ "H1_L1_dband" := by decide
  have hn7 : ("H1_L1_df" : String) ≠ "H1_L1_ddur" := by decide
  have hn8 : ("H1_L1_dh" : String) ≠ "H1_L1_dband" := by decide
  have hn9 : ("H1_L1_dh" : String) ≠ "H1_L1_ddur" := by decide
  have hn10 : ("H1_L1_dband" : String) ≠ "H1_L1_ddur" := by decide
  norm_num [coinc_params, cps3, sortEv, insertEv, pairsOf, pairUpdates, updMin, alookup,
    setk, zeroDenom, betterAbs, evH1x, evH1y, evL1, hle1, hle2, ha1, ha2, ha3, ha4, ha5,
    hn0, hn1, hn2, hn3, hn4, hn5, hn6, hn7, hn8, hn9, hn10,
    hn0.symm, hn1.symm, hn2.symm, hn3.symm, hn4.symm, hn5.symm, hn6.symm, hn7.symm,
    hn8.symm, hn9.symm, hn10.symm, abs_of_nonneg, abs_of_nonpos]

/-!
## String utilities for the XML round trip
-/

theorem str_append_cancel (pre a b : String) (h : pre ++ a = pre ++ b) : a = b := by
  apply String.ext
  have hd := congrArg String.data h
  rw [String.data_append, String.data_append] at hd
  exact List.append_cancel_left hd

theorem inj_ne_bg (a b : String) : ("injection:" ++ a : String) ≠ "background:" ++ b := by
  intro h
  have hd := congrArg String.data h
  rw [String.data_append, String.data_append] at hd
  have ha : ("injection:" : String).data ++ a.data =
      'i' :: (('n' :: 'j' :: 'e' :: 'c' :: 't' :: 'i' :: 'o' :: 'n' :: ':' :: []) ++ a.data) := rfl
  have hb : ("background:" : String).data ++ b.data =
      'b' :: (('a' :: 'c' :: 'k' :: 'g' :: 'r' :: 'o' :: 'u' :: 'n' :: 'd' :: ':' :: []) ++ b.data) := rfl
  rw [ha, hb, List.cons.injEq] at hd
  exact absurd hd.1 (by decide)

theorem take11_bg (k : String) :
    (("background:" ++ k : String)).data.take 11 = ("background:" : String).data := by
  rw [String.data_append]
  have hlen : (("background:" : String).data).length = 11 := by decide
  rw [← hlen, List.take_left]

theorem take11_inj_ne (k : String) :
    (("injection:" ++ k : String)).data.take 11 ≠ ("background:" : String).data := by
  intro h
  rw [String.data_append] at h
  have hstep : ("injection:" : String).data ++ k.data =
      'i' :: (('n' :: 'j' :: 'e' :: 'c' :: 't' :: 'i' :: 'o' :: 'n' :: ':' :: []) ++ k.data) := rfl
  rw [hstep] at h
  rw [show (11 : Nat) = 10 + 1 from rfl, List.take_succ_cons] at h
  have hb : ("background:" : String).data =
      'b' :: ('a' :: 'c' :: 'k' :: 'g' :: 'r' :: 'o' :: 'u' :: 'n' :: 'd' :: ':' :: []) := rfl
  rw [hb, List.cons.injEq] at h
  exact absurd h.1 (by decide)

theorem takeWhile_no_colon (l : List Char) (h : ':' ∉ l) :
    l.takeWhile (fun c => c ≠ ':') = l := by
  induction l with
  | nil => rfl
  | cons c cs ih =>
    have hc : (c ≠ ':') := fun he => h (he ▸ List.mem_cons_self _ _)
    rw [List.takeWhile_cons, if_pos (by simp [hc]), ih (fun hm => h (List.mem_cons_of_mem _ hm))]

theorem afterColon_bg (k : String) (hk : ':' ∉ k.data) :
    afterColon (("background:" ++ k : String)).data = k.data := by
  rw [String.data_append]
  have hbg : ("background:" : String).data ++ k.data =
      'b' :: 'a' :: 'c' :: 'k' :: 'g' :: 'r' :: 'o' :: 'u' :: 'n' :: 'd' :: ':' :: k.data := rfl
  rw [hbg]
  unfold afterColon
  have hdw : List.dropWhile (fun c => c ≠ ':')
      ('b' :: 'a' :: 'c' :: 'k' :: 'g' :: 'r' :: 'o' :: 'u' :: 'n' :: 'd' :: ':' :: k.data) = ':' :: k.data := by
    simp [List.dropWhile]
  rw [hdw]
  rw [List.drop_one, List.tail_cons]
  exact takeWhile_no_colon k.data hk

theorem mk_data_eta (k : String) : String.mk k.data = k := rfl

/-!
## XML serialization lemmas
-/

theorem parMatcher_arr (nm0 : String) (r : Rate) (s : String) :
    parMatcher nm0 (rate_to_xml r s) = none := rfl

theorem parMatch_rate_map (nm0 pre : String) (l : List (String × Rate)) :
    (l.map (fun pr => rate_to_xml pr.2 (pre ++ pr.1))).filterMap (parMatcher nm0) = [] := by
  induction l with
  | nil => rfl
  | cons hd tl ih =>
    rw [List.map_cons, List.filterMap_cons, parMatcher_arr]
    exact ih

theorem get_pyvalue_to_xml (pid nm : String) (d : CoincParamsDistributions) :
    get_pyvalue (coinc_params_distributions_to_xml pid d nm) "process_id" =
      Except.ok pid := by
  unfold get_pyvalue coinc_params_distributions_to_xml
  rw [List.filterMap_cons, List.filterMap_append]
  rw [parMatch_rate_map "process_id" "background:" d.background_rates,
    parMatch_rate_map "process_id" "injection:" d.injection_rates]
  rfl

theorem nameMatcher_par_pid (pid : String) :
    nameMatcher (LwChild.par "process_id" pid) = none := by
  show (if ("process_id" : String).data.take 11 = ("background:" : String).data
    then some (String.mk (afterColon ("process_id" : String).data)) else none) = none
  rw [if_neg (by decide)]

theorem nameMatcher_bg (r : Rate) (k : String) (hk : ':' ∉ k.data) :
    nameMatcher (rate_to_xml r ("background:" ++ k)) = some k := by
  show (if ("background:" ++ k : String).data.take 11 = ("background:" : String).data
    then some (String.mk (afterColon ("background:" ++ k : String).data)) else none) = some k
  rw [if_pos (take11_bg k), afterColon_bg k hk, mk_data_eta]

theorem nameMatcher_inj (r : Rate) (k : String) :
    nameMatcher (rate_to_xml r ("injection:" ++ k)) = none := by
  show (if ("injection:" ++ k : String).data.take 11 = ("background:" : String).data
    then some (String.mk (afterColon ("injection:" ++ k : String).data)) else none) = none
  rw [if_neg (take11_inj_ne k)]

theorem names_bg_map (l : List (String × Rate)) (hcolon : ∀ pr ∈ l, ':' ∉ pr.1.data) :
    (l.map (fun pr => rate_to_xml pr.2 ("background:" ++ pr.1))).filterMap nameMatcher =
      keysOf l := by
  induction l with
  | nil => rfl
  | cons hd tl ih =>
    obtain ⟨k, r⟩ := hd
    rw [List.map_cons, List.filterMap_cons,
      nameMatcher_bg r k (hcolon (k, r) (List.mem_cons_self _ _)),
      ih (fun pr hpr => hcolon pr (List.mem_cons_of_mem _ hpr))]
    rfl

theorem names_inj_map (l : List (String × Rate)) :
    (l.map (fun pr => rate_to_xml pr.2 ("injection:" ++ pr.1))).filterMap nameMatcher =
      [] := by
  induction l with
  | nil => rfl
  | cons hd tl ih =>
    obtain ⟨k, r⟩ := hd
    rw [List.map_cons, List.filterMap_cons, nameMatcher_inj r k]
    exact ih

theorem names_to_xml (pid nm : String) (d : CoincParamsDistributions)
    (hcolon : ∀ k ∈ keysOf d.background_rates, ':' ∉ k.data) :
    (coinc_params_distributions_to_xml pid d nm).children.filterMap nameMatcher =
      keysOf d.background_rates := by
  unfold coinc_params_distributions_to_xml
  rw [List.filterMap_cons, nameMatcher_par_pid, List.filterMap_append]
  rw [names_bg_map d.background_rates
    (fun pr hpr => hcolon pr.1 (List.mem_map.mpr ⟨pr, hpr, rfl⟩)),
    names_inj_map d.injection_rates]
  rw [List.append_nil]

theorem arrMatcher_par (nm0 n v : String) :
    arrMatcher nm0 (LwChild.par n v) = none := rfl

theorem arrMatcher_arr_eq (r : Rate) (s : String) :
    arrMatcher s (rate_to_xml r s) = some (r.lo, r.binWidth, r.array) := by
  show (if s = s then some (r.lo, r.binWidth, r.array) else none) =
    some (r.lo, r.binWidth, r.array)
  rw [if_pos rfl]

theorem arrMatcher_arr_ne (r : Rate) (s t : String) (h : s ≠ t) :
    arrMatcher t (rate_to_xml r s) = none := by
  show (if s = t then some (r.lo, r.binWidth, r.array) else none) = none
  rw [if_neg h]

theorem arrMatch_map (pre p : String) (l : List (String × Rate))
    (hnd : (keysOf l).Nodup) :
    (l.map (fun pr => rate_to_xml pr.2 (pre ++ pr.1))).filterMap (arrMatcher (pre ++ p)) =
    (match alookup p l with
      | some r => [(r.lo, r.binWidth, r.array)]
      | none => []) := by
  induction l with
  | nil => rfl
  | cons hd tl ih =>
    obtain ⟨k, r⟩ := hd
    rw [keysOf_cons] at hnd
    have hnd1 : k ∉ keysOf tl := (List.nodup_cons.mp hnd).1
    have hnd2 : (keysOf tl).Nodup := (List.nodup_cons.mp hnd).2
    rw [List.map_cons, List.filterMap_cons]
    by_cases hkp : k = p
    · subst hkp
      rw [arrMatcher_arr_eq, alookup_cons, if_pos rfl]
      have htl : alookup k tl = none := (alookup_eq_none_iff k tl).mpr hnd1
      rw [ih hnd2, htl]
    · have hne : (pre ++ k : String) ≠ pre ++ p := by
        intro he
        exact hkp (str_append_cancel pre k p he)
      rw [arrMatcher_arr_ne r _ _ hne, alookup_cons, if_neg hkp]
      exact ih hnd2

theorem arrMatch_map_ne (pre1 target : String) (l : List (String × Rate))
    (hne : ∀ k, (pre1 ++ k : String) ≠ target) :
    (l.map (fun pr => rate_to_xml pr.2 (pre1 ++ pr.1))).filterMap (arrMatcher target) =
      [] := by
  induction l with
  | nil => rfl
  | cons hd tl ih =>
    rw [List.map_cons, List.filterMap_cons, arrMatcher_arr_ne hd.2 _ _ (hne hd.1)]
    exact ih

theorem rate_from_xml_to_xml_bg (pid nm : String) (d : CoincParamsDistributions)
    (p : String) (rb : Rate) (hnd : (keysOf d.background_rates).Nodup)
    (hb : alookup p d.background_rates = some rb) :
    rate_from_xml (coinc_params_distributions_to_xml pid d nm) ("background:" ++ p) =
      Except.ok (reconRate rb) := by
  unfold rate_from_xml coinc_params_distributions_to_xml
  rw [List.filterMap_cons, arrMatcher_par, List.filterMap_append]
  rw [arrMatch_map "background:" p d.background_rates hnd, hb]
  rw [arrMatch_map_ne "injection:" ("background:" ++ p) d.injection_rates
    (fun k => inj_ne_bg k p)]
  rfl

theorem rate_from_xml_to_xml_inj (pid nm : String) (d : CoincParamsDistributions)
    (p : String) (ri : Rate) (hnd : (keysOf d.injection_rates).Nodup)
    (hi : alookup p d.injection_rates = some ri) :
    rate_from_xml (coinc_params_distributions_to_xml pid d nm) ("injection:" ++ p) =
      Except.ok (reconRate ri) := by
  unfold rate_from_xml coinc_params_distributions_to_xml
  rw [List.filterMap_cons, arrMatcher_par, List.filterMap_append]
  rw [arrMatch_map "injection:" p d.injection_rates hnd, hi]
  rw [arrMatch_map_ne "background:" ("injection:" ++ p) d.background_rates
    (fun k => (inj_ne_bg p k).symm)]
  rfl

theorem buildCPD_spec (x : LigoLW) :
    ∀ (names : List String) (c : CoincParamsDistributions),
      names.Nodup →
      (∀ p ∈ names, alookup p c.background_rates = none ∧
        alookup p c.injection_rates = none) →
      (∀ p ∈ names, ∃ rb ri, rate_from_xml x ("background:" ++ p) = Except.ok rb ∧
        rate_from_xml x ("injection:" ++ p) = Except.ok ri) →
      ∃ c', buildCPD x c names = Except.ok c' ∧
        (∀ p rb ri, p ∈ names → rate_from_xml x ("background:" ++ p) = Except.ok rb →
          rate_from_xml x ("injection:" ++ p) = Except.ok ri →
          alookup p c'.background_rates = some rb ∧
            alookup p c'.injection_rates = some ri) ∧
        (∀ q, q ∉ names →
          alookup q c'.background_rates = alookup q c.background_rates ∧
            alookup q c'.injection_rates = alookup q c.injection_rates) := by
  intro names
  induction names with
  | nil =>
    intro c _ _ _
    exact ⟨c, rfl, fun p rb ri hp => absurd hp (List.not_mem_nil p),
      fun q _ => ⟨rfl, rfl⟩⟩
  | cons p rest ih =>
    intro c hnd hnone hex
    obtain ⟨rb, ri, hrb, hri⟩ := hex p (List.mem_cons_self _ _)
    have hnd1 : p ∉ rest := (List.nodup_cons.mp hnd).1
    have hnd2 : rest.Nodup := (List.nodup_cons.mp hnd).2
    have hstep : buildCPD x c (p :: rest) =
        buildCPD x
          { background_rates := dinsert c.background_rates p rb
            injection_rates := dinsert c.injection_rates p ri } rest := by
      have haddx : addFromXml x c p = Except.ok
          { background_rates := dinsert c.background_rates p rb
            injection_rates := dinsert c.injection_rates p ri } := by
        unfold addFromXml
        rw [hrb, hri]
      simp only [buildCPD, haddx]
    have hnone1 : ∀ q ∈ rest,
        alookup q (dinsert c.background_rates p rb) = none ∧
        alookup q (dinsert c.injection_rates p ri) = none := by
      intro q hq
      have hqp : p ≠ q := fun he => hnd1 (he ▸ hq)
      obtain ⟨h1, h2⟩ := hnone q (List.mem_cons_of_mem _ hq)
      rw [alookup_dinsert_ne q p rb _ hqp, alookup_dinsert_ne q p ri _ hqp]
      exact ⟨h1, h2⟩
    obtain ⟨c', hc', hmem, hnot⟩ :=
      ih { background_rates := dinsert c.background_rates p rb,
            injection_rates := dinsert c.injection_rates p ri }
        hnd2 hnone1 (fun q hq => hex q (List.mem_cons_of_mem _ hq))
    refine ⟨c', by rw [hstep]; exact hc', ?_, ?_⟩
    · intro q qb qi hq hqb hqi
      rcases List.mem_cons.mp hq with hq1 | hq1
      · subst hq1
        obtain ⟨h1, h2⟩ := hnot q hnd1
        have hqbrb : qb = rb := by
          rw [hrb] at hqb
          rw [Except.ok.injEq] at hqb
          exact hqb.symm
        have hqiri : qi = ri := by
          rw [hri] at hqi
          rw [Except.ok.injEq] at hqi
          exact hqi.symm
        subst hqbrb
        subst hqiri
        rw [h1, h2]
        exact ⟨alookup_dinsert_self q qb c.background_rates,
          alookup_dinsert_self q qi c.injection_rates⟩
      · exact hmem q qb qi hq1 hqb hqi
    · intro q hq
      have hq1 : q ∉ rest := fun h => hq (List.mem_cons_of_mem _ h)
      have hqp : p ≠ q := fun he => hq (he ▸ List.mem_cons_self _ _)
      obtain ⟨h1, h2⟩ := hnot q hq1
      rw [h1, h2, alookup_dinsert_ne q p rb _ hqp, alookup_dinsert_ne q p ri _ hqp]
      exact ⟨rfl, rfl⟩

/-- C2 counterexample: a `CoincParamsDistributions` whose parameter name
contains a colon — constructible in Python as
`CoincParamsDistributions(**{"a:b": (segment(0.0, 1.0), 1.0)})` — does not
round-trip: deserialization splits the element name `background:a:b` at
colons, looks up the non-existent element `background:a`, and fails. -/
theorem c2_counterexample :
    coinc_params_distributions_from_xml
        [coinc_params_distributions_to_xml "p0" dColon "nm"] "nm" =
      Except.error "background:a" := rfl

/-- C2 (amended): serialization followed by deserialization under the same
name reproduces every histogram's bin edges and bin values, for every
`CoincParamsDistributions` whose two mappings are duplicate-free, track the
same parameter names, and use names without a colon (as every accumulator
configured through `__init__` keyword arguments does). -/
theorem c2_roundtrip (pid nm : String) (d : CoincParamsDistributions)
    (hbN : (keysOf d.background_rates).Nodup)
    (hiN : (keysOf d.injection_rates).Nodup)
    (hal : keysAligned d)
    (hcolon : ∀ k ∈ keysOf d.background_rates, ':' ∉ k.data) :
    ∃ c, coinc_params_distributions_from_xml
        [coinc_params_distributions_to_xml pid d nm] nm = Except.ok (c, pid) ∧
      (∀ p, (alookup p c.background_rates).isSome ↔
        (alookup p d.background_rates).isSome) ∧
      (∀ p, (alookup p c.injection_rates).isSome ↔
        (alookup p d.injection_rates).isSome) ∧
      (∀ p rb, alookup p d.background_rates = some rb →
        ∃ rb', alookup p c.background_rates = some rb' ∧
          binEdges rb' = binEdges rb ∧ rb'.array = rb.array) ∧
      (∀ p ri, alookup p d.injection_rates = some ri →
        ∃ ri', alookup p c.injection_rates = some ri' ∧
          binEdges ri' = binEdges ri ∧ ri'.array = ri.array) := by
  have hex : ∀ p ∈ keysOf d.background_rates,
      ∃ rb ri, rate_from_xml (coinc_params_distributions_to_xml pid d nm)
          ("background:" ++ p) = Except.ok rb ∧
        rate_from_xml (coinc_params_distributions_to_xml pid d nm)
          ("injection:" ++ p) = Except.ok ri := by
    intro p hp
    have hpb : (alookup p d.background_rates).isSome :=
      (alookup_isSome_iff p d.background_rates).mpr hp
    have hpi : (alookup p d.injection_rates).isSome :=
      (alookup_isSome_iff p d.injection_rates).mpr (hal.1 p hp)
    rcases hb0 : alookup p d.background_rates with _ | rb0
    · rw [hb0] at hpb
      cases hpb
    · rcases hi0 : alookup p d.injection_rates with _ | ri0
      · rw [hi0] at hpi
        cases hpi
      · exact ⟨reconRate rb0, reconRate ri0,
          rate_from_xml_to_xml_bg pid nm d p rb0 hbN hb0,
          rate_from_xml_to_xml_inj pid nm d p ri0 hiN hi0⟩
  have hnone0 : ∀ p ∈ keysOf d.background_rates,
      alookup p ([] : List (String × Rate)) = none ∧
      alookup p ([] : List (String × Rate)) = none := fun p _ => ⟨rfl, rfl⟩
  obtain ⟨c', hc', hmem, hnot⟩ :=
    buildCPD_spec (coinc_params_distributions_to_xml pid d nm)
      (keysOf d.background_rates) { background_rates := [], injection_rates := [] }
      hbN hnone0 hex
  have hfilter : ([coinc_params_distributions_to_xml pid d nm].filter
      (fun e => e.name = nm ++ ":pylal_ligolw_burca_tailor_coincparamsdistributions")) =
      [coinc_params_distributions_to_xml pid d nm] := by
    simp [coinc_params_distributions_to_xml]
  refine ⟨c', ?_, ?_, ?_, ?_, ?_⟩
  · unfold coinc_params_distributions_from_xml
    rw [hfilter]
    simp only [get_pyvalue_to_xml pid nm d, names_to_xml pid nm d hcolon, hc']
  · intro p
    by_cases hp : p ∈ keysOf d.background_rates
    · obtain ⟨rb, ri, hrb, hri⟩ := hex p hp
      rw [(hmem p rb ri hp hrb hri).1]
      simp [(alookup_isSome_iff p d.background_rates).mpr hp]
    · rw [(hnot p hp).1]
      show (alookup p ([] : List (String × Rate))).isSome ↔ _
      rcases hb0 : alookup p d.background_rates with _ | rb0
      · simp [alookup]
      · exact absurd ((alookup_isSome_iff p d.background_rates).mp (by simp [hb0])) hp
  · intro p
    by_cases hp : p ∈ keysOf d.background_rates
    · obtain ⟨rb, ri, hrb, hri⟩ := hex p hp
      rw [(hmem p rb ri hp hrb hri).2]
      simp [(alookup_isSome_iff p d.injection_rates).mpr (hal.1 p hp)]
    · rw [(hnot p hp).2]
      show (alookup p ([] : List (String × Rate))).isSome ↔ _
      rcases hi0 : alookup p d.injection_rates with _ | ri0
      · simp [alookup]
      · have : p ∈ keysOf d.injection_rates :=
          (alookup_isSome_iff p d.injection_rates).mp (by simp [hi0])
        exact absurd (hal.2 p this) hp
  · intro p rb hb0
    have hp : p ∈ keysOf d.background_rates :=
      (alookup_isSome_iff p d.background_rates).mp (by simp [hb0])
    have hpi : (alookup p d.injection_rates).isSome :=
      (alookup_isSome_iff p d.injection_rates).mpr (hal.1 p hp)
    rcases hi0 : alookup p d.injection_rates with _ | ri0
    · rw [hi0] at hpi
      cases hpi
    · refine ⟨reconRate rb, ?_, rfl, rfl⟩
      exact (hmem p (reconRate rb) (reconRate ri0) hp
        (rate_from_xml_to_xml_bg pid nm d p rb hbN hb0)
        (rate_from_xml_to_xml_inj pid nm d p ri0 hiN hi0)).1
  · intro p ri hi0
    have hpinj : p ∈ keysOf d.injection_rates :=
      (alookup_isSome_iff p d.injection_rates).mp (by simp [hi0])
    have hp : p ∈ keysOf d.background_rates := hal.2 p hpinj
    have hpb : (alookup p d.background_rates).isSome :=
      (alookup_isSome_iff p d.background_rates).mpr hp
    rcases hb0 : alookup p d.background_rates with _ | rb0
    · rw [hb0] at hpb
      cases hpb
    · refine ⟨reconRate ri, ?_, rfl, rfl⟩
      exact (hmem p (reconRate rb0) (reconRate ri) hp
        (rate_from_xml_to_xml_bg pid nm d p rb0 hbN hb0)
        (rate_from_xml_to_xml_inj pid nm d p ri hiN hi0)).2

/-- C2 witness: the round-trip theorem applied to the concrete two-parameter
accumulator `dRound`. -/
theorem c2_witness :
    ∃ c, coinc_params_distributions_from_xml
        [coinc_params_distributions_to_xml "p0" dRound "nm"] "nm" =
          Except.ok (c, "p0") ∧
      (∀ p, (alookup p c.background_rates).isSome ↔
        (alookup p dRound.background_rates).isSome) ∧
      (∀ p, (alookup p c.injection_rates).isSome ↔
        (alookup p dRound.injection_rates).isSome) ∧
      (∀ p rb, alookup p dRound.background_rates = some rb →
        ∃ rb', alookup p c.background_rates = some rb' ∧
          binEdges rb' = binEdges rb ∧ rb'.array = rb.array) ∧
      (∀ p ri, alookup p dRound.injection_rates = some ri →
        ∃ ri', alookup p c.injection_rates = some ri' ∧
          binEdges ri' = binEdges ri ∧ ri'.array = ri.array) :=
  c2_roundtrip "p0" "nm" dRound (by decide) (by decide) (by decide) (by decide)

end BurcaTailor
